import Mathlib

/-
Verification of the half_baked fermentation scheduler
(src/half_baked/half_baked.py).

Embedding conventions:
* Python floats are modelled as real numbers.
* datetime values are modelled as real numbers of seconds; a timedelta is a
  real number of seconds.  `timedelta(hours = h)` is `h * 3600` seconds.
* `timedelta.seconds` (the seconds-of-day component, discarding whole days)
  is `⌊d⌋ % 86400` with Python (floor) modulus semantics, which `Int.emod`
  matches for a positive modulus.
* An optional value (Python `None`) is an `Option`.
* Code that can raise is modelled with `Option`/`Except` results: `none` /
  `.error` marks the raising execution path (`IndexError`, `TypeError`,
  `ValueError`, `ZeroDivisionError`), `some` / `.ok` the normal return.
* Python negative-index semantics for list subscripts, `list.insert` and
  `del` are modelled by `pyGet`, `pyInsert` and `pyDelete`.
-/

noncomputable section

namespace HalfBaked

/-- Model of `timedelta.seconds`: the seconds-of-day component of a delta of
`d` real seconds, i.e. `⌊d⌋ % 86400` (Python floor-mod, matching `Int.emod`). -/
def tdSeconds (d : ℝ) : ℤ := ⌊d⌋ % 86400

/-- Model of `timedelta(hours = h)` as a number of seconds. -/
def hoursTd (h : ℝ) : ℝ := h * 3600

/-- Model of `(end_time - start_time).seconds / 3600` from `Ferment.__init__`
and `Ferment.change_times`; `none` when either operand is `None` (Python
raises `TypeError` on `None` subtraction). -/
def hoursFromTimes (start_time end_time : Option ℝ) : Option ℝ :=
  match end_time, start_time with
  | some e, some s => some ((tdSeconds (e - s) : ℝ) / 3600)
  | _, _ => none

/-- One fermentation stage, mirroring the attributes of the Python `Ferment`
class: `name`, `hours`, `temp`, `double_temp`, `inoc`, `start_time`. -/
@[ext]
structure Ferment where
  name : String
  hours : ℝ
  temp : ℝ
  double_temp : ℝ
  inoc : ℝ
  start_time : Option ℝ

/-- Model of `Ferment.__init__`.  The `hours`, `start_time`, `end_time`
arguments are optional; `temp`, `double_temp`, `inoc` are the (defaulted)
float arguments.  Returns `none` when Python would raise (no `hours` and no
usable `start_time`/`end_time` pair).  The test `if hours:` is float
truthiness, so an explicit `0.0` counts as absent. -/
def Ferment.init (name : String) (hours start_time end_time : Option ℝ)
    (temp double_temp inoc : ℝ) : Option Ferment :=
  let hoursVal : Option ℝ :=
    match hours with
    | some h => if h = 0 then hoursFromTimes start_time end_time else some h
    | none => hoursFromTimes start_time end_time
  match hoursVal with
  | none => none
  | some hv =>
    let st : Option ℝ :=
      match start_time, end_time with
      | none, some e =>
        match hours with
        | some h => some (e - hoursTd h)
        | none => none
      | s, _ => s
    some { name := name, hours := hv, temp := temp, double_temp := double_temp,
           inoc := inoc, start_time := st }

/-- The argument record produced by `Ferment.get_args`. -/
structure FermentArgs where
  name : String
  hours : ℝ
  start_time : Option ℝ
  temp : ℝ
  double_temp : ℝ
  inoc : ℝ

/-- Model of `Ferment.get_args`. -/
def Ferment.get_args (f : Ferment) : FermentArgs :=
  { name := f.name, hours := f.hours, start_time := f.start_time,
    temp := f.temp, double_temp := f.double_temp, inoc := f.inoc }

/-- Reconstruction of a `Ferment` from a `get_args` record, i.e.
`Ferment(**args)`. -/
def Ferment.ofArgs (a : FermentArgs) : Option Ferment :=
  Ferment.init a.name (some a.hours) a.start_time none a.temp a.double_temp a.inoc

/-- Model of `Ferment.get_end_time` (a datetime object is always truthy, so
the Python test `if self.start_time:` is a `None` test). -/
def Ferment.get_end_time (f : Ferment) : Option ℝ :=
  match f.start_time with
  | some s => some (s + hoursTd f.hours)
  | none => none

/-- Model of `Ferment.change_hours` (total version; the raising behaviour on
non-positive arguments is captured separately by `Ferment.change_hoursE`). -/
def Ferment.change_hours (f : Ferment) (new_hours : ℝ) (hold : String) : Ferment :=
  if hold ≠ "temp" then
    let c := f.double_temp / Real.log 2
    let new_temp := f.temp - c * Real.log (new_hours / f.hours)
    { f with temp := new_temp, hours := new_hours }
  else
    let new_inoc := f.inoc * (f.hours / new_hours)
    { f with inoc := new_inoc, hours := new_hours }

/-- Model of `Ferment.change_temp`. -/
def Ferment.change_temp (f : Ferment) (new_temp : ℝ) (hold : String) : Ferment :=
  let inv_c := Real.log 2 / f.double_temp
  let old_hours := f.hours
  let new_hours := old_hours * Real.exp (inv_c * (f.temp - new_temp))
  let f' : Ferment := { f with hours := new_hours, temp := new_temp }
  if hold = "hours" then f'.change_hours old_hours "temp" else f'

/-- Model of `Ferment.change_inoc` (total version; see `Ferment.change_inocE`
for the raising behaviour). -/
def Ferment.change_inoc (f : Ferment) (new_inoc : ℝ) (hold : String) : Ferment :=
  let old_hours := f.hours
  let new_hours := old_hours * (f.inoc / new_inoc)
  let f' : Ferment := { f with hours := new_hours, inoc := new_inoc }
  if hold = "hours" then f'.change_hours old_hours "inoc" else f'

/-- Model of `Ferment.change_times` (a datetime argument is always truthy, so
the Python tests are `None` tests). -/
def Ferment.change_times (f : Ferment) (new_start_time new_end_time : Option ℝ)
    (hold : String) : Ferment :=
  match new_start_time with
  | some s =>
    let f' : Ferment :=
      match new_end_time with
      | some e => f.change_hours ((tdSeconds (e - s) : ℝ) / 3600) hold
      | none => f
    { f' with start_time := some s }
  | none =>
    match new_end_time with
    | some e => { f with start_time := some (e - hoursTd f.hours) }
    | none => { f with start_time := none }

/-- All fields of a stage except `start_time`; used to state that an
operation can change at most the start times. -/
def Ferment.core (f : Ferment) : String × ℝ × ℝ × ℝ × ℝ :=
  (f.name, f.hours, f.temp, f.double_temp, f.inoc)

/-- Raw Python arithmetic faults that the change operations can raise. -/
inductive PyErr where
  | valueError
  | zeroDivisionError

/-- Python float division: raises `ZeroDivisionError` on a zero divisor. -/
def pyDivE (a b : ℝ) : Except PyErr ℝ :=
  if b = 0 then .error .zeroDivisionError else .ok (a / b)

/-- Python `math.log`: raises `ValueError` (math domain error) on a
non-positive argument. -/
def pyLogE (x : ℝ) : Except PyErr ℝ :=
  if x ≤ 0 then .error .valueError else .ok (Real.log x)

/-- Model of `Ferment.change_hours` with Python raising semantics made
explicit; on the `.ok` path it computes exactly `Ferment.change_hours`. -/
def Ferment.change_hoursE (f : Ferment) (new_hours : ℝ) (hold : String) :
    Except PyErr Ferment :=
  if hold ≠ "temp" then
    match pyDivE f.double_temp (Real.log 2) with
    | .error e => .error e
    | .ok c =>
      match pyDivE new_hours f.hours with
      | .error e => .error e
      | .ok r =>
        match pyLogE r with
        | .error e => .error e
        | .ok lg => .ok { f with temp := f.temp - c * lg, hours := new_hours }
  else
    match pyDivE f.hours new_hours with
    | .error e => .error e
    | .ok r => .ok { f with inoc := f.inoc * r, hours := new_hours }

/-- Model of `Ferment.change_inoc` with Python raising semantics made
explicit. -/
def Ferment.change_inocE (f : Ferment) (new_inoc : ℝ) (hold : String) :
    Except PyErr Ferment :=
  match pyDivE f.inoc new_inoc with
  | .error e => .error e
  | .ok r =>
    let f' : Ferment := { f with hours := f.hours * r, inoc := new_inoc }
    if hold = "hours" then f'.change_hoursE f.hours "inoc" else .ok f'

end HalfBaked



namespace HalfBaked

/-- Resolution of a Python list index: negative indices count from the end. -/
def pyResolve (n : ℕ) (i : ℤ) : ℤ := if i < 0 then i + n else i

/-- Python list subscript `l[i]`: `none` models the `IndexError` path. -/
def pyGet {α : Type} (l : List α) (i : ℤ) : Option α :=
  if 0 ≤ pyResolve l.length i then l[(pyResolve l.length i).toNat]? else none

/-- In-place mutation of the object at subscript `l[i]` (the Python code
fetches `self.ferments[i]` and mutates it); `none` models `IndexError`. -/
def pyModify {α : Type} (l : List α) (i : ℤ) (g : α → α) : Option (List α) :=
  if 0 ≤ pyResolve l.length i then
    match l[(pyResolve l.length i).toNat]? with
    | some a => some (l.set (pyResolve l.length i).toNat (g a))
    | none => none
  else none

/-- Python `list.insert(i, x)`: out-of-range indices are clamped, never an
error. -/
def pyInsert {α : Type} (l : List α) (i : ℤ) (x : α) : List α :=
  l.insertIdx (max 0 (min (pyResolve l.length i) l.length)).toNat x

/-- Python `del l[i]`: `none` models the `IndexError` path. -/
def pyDelete {α : Type} (l : List α) (i : ℤ) : Option (List α) :=
  if 0 ≤ pyResolve l.length i ∧ pyResolve l.length i < l.length then
    some (l.eraseIdx (pyResolve l.length i).toNat)
  else none

/-- Python `range(a, b)` over integers. -/
def intRange (a b : ℤ) : List ℤ :=
  (List.range (b - a).toNat).map (fun (k : ℕ) => a + (k : ℤ))

/-- Python `range(a, b, -1)` over integers. -/
def intRangeDown (a b : ℤ) : List ℤ :=
  (List.range (a - b).toNat).map (fun (k : ℕ) => a - (k : ℤ))

/-- The `Bake` aggregate: a name, the ordered stage list, and the stored
name-to-position dict `ferment_index` (a Python dict is modelled as an
association list; later entries shadow earlier ones on lookup). -/
@[ext]
structure Bake where
  name : Option String
  ferments : List Ferment
  ferment_index : List (String × ℕ)

/-- The dict comprehension in `Bake.update_ferment_index`. -/
def mkFermentIndex (l : List Ferment) : List (String × ℕ) :=
  l.enum.map (fun p => (p.2.name, p.1))

/-- Model of `Bake.update_ferment_index`. -/
def Bake.update_ferment_index (b : Bake) : Bake :=
  { b with ferment_index := mkFermentIndex b.ferments }

/-- Python dict lookup on the association-list model: the last binding of a
key wins, matching dict insertion/overwrite order. -/
def pyDictGet (d : List (String × ℕ)) (key : String) : Option ℕ :=
  (d.reverse.find? (fun p => p.1 == key)).map Prod.snd

/-- The `while ferment.name in self.ferment_index.keys()` underscore loop of
`Bake.add_ferment`, with explicit fuel; `add_ferment` calls it with fuel
`taken.length + 1`, which is enough to reach a fresh name (see
`dedupName_not_mem`). -/
def dedupName (taken : List String) : ℕ → String → String
  | 0, nm => nm
  | fuel+1, nm => if nm ∈ taken then dedupName taken fuel (nm ++ "_") else nm

/-- The candidate scan order `[index] + list(range(n_ferments))` of
`Bake.sync_times`. -/
def candidateIdx (index : ℤ) (n : ℕ) : List ℤ :=
  index :: (List.range n).map (fun (p : ℕ) => (p : ℤ))

/-- The reference search loop of `Bake.sync_times`: first candidate whose
stage has a non-`None` start time (the Python test is
`if ... start_time is not None`).  `none` models an `IndexError` on a bad
candidate subscript, `some none` the no-reference (all unanchored) outcome. -/
def findRef (fm : List Ferment) : List ℤ → Option (Option ℤ)
  | [] => some none
  | i :: rest =>
    (pyGet fm i).bind (fun f =>
      if f.start_time.isSome then some (some i) else findRef fm rest)

/-- The forward propagation loop of `Bake.sync_times`: for each `i` in turn,
`ferments[i].change_times(ferments[i-1].get_end_time())`. -/
def syncForward : List Ferment → List ℤ → Option (List Ferment)
  | fm, [] => some fm
  | fm, i :: rest =>
    (pyGet fm (i - 1)).bind (fun prev =>
      (pyModify fm i
          (fun f => Ferment.change_times f prev.get_end_time none "inoc")).bind
        (fun fm' => syncForward fm' rest))

/-- The backward propagation loop of `Bake.sync_times`: for each `i` in
turn, `ferments[i].change_times(ferments[i+1].start_time - timedelta(hours =
ferments[i].hours))`.  A `None` start time at `i+1` would raise `TypeError`
on the subtraction, modelled as `none`. -/
def syncBackward : List Ferment → List ℤ → Option (List Ferment)
  | fm, [] => some fm
  | fm, i :: rest =>
    (pyGet fm (i + 1)).bind (fun nxt =>
      nxt.start_time.bind (fun s =>
        (pyModify fm i
            (fun f => Ferment.change_times f (some (s - hoursTd f.hours)) none "inoc")).bind
          (fun fm' => syncBackward fm' rest)))

/-- Model of `Bake.sync_times`: guard on a non-empty stage list, search for
a reference stage over `[index] + range(n)`, then propagate forward from
`ref_index + 1` to `n - 1` and backward from `ref_index - 1` down to `0`. -/
def Bake.sync_times (b : Bake) (index : ℤ) : Option Bake :=
  if b.ferments.length = 0 then some b
  else
    (findRef b.ferments (candidateIdx index b.ferments.length)).bind (fun r =>
      r.elim (some b) (fun ref =>
        (syncForward b.ferments (intRange (ref + 1) b.ferments.length)).bind (fun fm1 =>
          (syncBackward fm1 (intRangeDown (ref - 1) (-1))).bind (fun fm2 =>
            some { b with ferments := fm2 }))))

/-- The keyword-argument record accepted by `Bake.add_ferment`; `none`
models an omitted (or `None`, where the code treats the two alike)
argument. -/
structure FermentKwargs where
  name : String
  hours : Option ℝ
  start_time : Option ℝ
  end_time : Option ℝ
  temp : Option ℝ
  double_temp : Option ℝ
  inoc : Option ℝ

/-- The defaults merge at the top of `Bake.add_ferment`:
`Bake.default_args = {"temp": 20.0}` is applied when `temp` is missing or
`None`. -/
def applyBakeDefaults (k : FermentKwargs) : FermentKwargs :=
  if k.temp = none then { k with temp := some 20 } else k

/-- `Ferment(**ferment_args)` for a keyword record: the `Ferment.__init__`
signature defaults `temp = 20.0`, `double_temp = 8.0`, `inoc = 10.0`. -/
def Ferment.initK (k : FermentKwargs) : Option Ferment :=
  Ferment.init k.name k.hours k.start_time k.end_time
    (k.temp.getD 20) (k.double_temp.getD 8) (k.inoc.getD 10)

/-- Model of `Bake.add_ferment`: merge defaults, build the stage, append
underscores to its name until it is unique, insert at `index` (append when
`index` is `None`), rebuild `ferment_index`, then `sync_times(index)` with
the original index argument. -/
def Bake.add_ferment (b : Bake) (index : Option ℤ) (args : FermentKwargs) : Option Bake :=
  (Ferment.initK (applyBakeDefaults args)).bind (fun f0 =>
    let nm := dedupName (b.ferment_index.map Prod.fst)
      (b.ferment_index.length + 1) f0.name
    let idx : ℤ := index.elim (b.ferments.length : ℤ) (fun i => i)
    let fm := pyInsert b.ferments idx { f0 with name := nm }
    Bake.sync_times (Bake.update_ferment_index { b with ferments := fm }) idx)

/-- Model of `Bake.remove_ferment`: delete the stage at `index`, rebuild
`ferment_index`, then `sync_times()` with the default anchor index `0`. -/
def Bake.remove_ferment (b : Bake) (index : ℤ) : Option Bake :=
  (pyDelete b.ferments index).bind (fun fm =>
    Bake.sync_times (Bake.update_ferment_index { b with ferments := fm }) 0)

/-- Model of `Bake.change_hours`. -/
def Bake.change_hours (b : Bake) (index : ℤ) (hours : ℝ) (hold : String) : Option Bake :=
  (pyModify b.ferments index (fun f => f.change_hours hours hold)).bind
    (fun fm => Bake.sync_times { b with ferments := fm } index)

/-- Model of `Bake.change_temp`. -/
def Bake.change_temp (b : Bake) (index : ℤ) (temp : ℝ) (hold : String) : Option Bake :=
  (pyModify b.ferments index (fun f => f.change_temp temp hold)).bind
    (fun fm => Bake.sync_times { b with ferments := fm } index)

/-- Model of `Bake.change_inoc`. -/
def Bake.change_inoc (b : Bake) (index : ℤ) (inoc : ℝ) (hold : String) : Option Bake :=
  (pyModify b.ferments index (fun f => f.change_inoc inoc hold)).bind
    (fun fm => Bake.sync_times { b with ferments := fm } index)

/-- Model of `Bake.change_times`. -/
def Bake.change_times (b : Bake) (index : ℤ) (start_time end_time : Option ℝ)
    (hold : String) : Option Bake :=
  (pyModify b.ferments index (fun f => f.change_times start_time end_time hold)).bind
    (fun fm => Bake.sync_times { b with ferments := fm } index)

/-- The stage-insertion loop of `Bake.__init__`. -/
def Bake.addAll (b : Bake) : List FermentKwargs → Option Bake
  | [] => some b
  | k :: rest => (b.add_ferment none k).bind (fun b' => b'.addAll rest)

/-- Model of `Bake.__init__`: empty stage list, `update_ferment_index`,
then `add_ferment` for each record of `ferment_list`. -/
def Bake.init (ferment_list : List FermentKwargs) (name : Option String) : Option Bake :=
  Bake.addAll
    (Bake.update_ferment_index { name := name, ferments := [], ferment_index := [] })
    ferment_list

/-- The argument record produced by `Bake.get_args`. -/
structure BakeArgs where
  name : Option String
  ferment_list : List FermentArgs

/-- Model of `Bake.get_args`. -/
def Bake.get_args (b : Bake) : BakeArgs :=
  { name := b.name, ferment_list := b.ferments.map Ferment.get_args }

/-- Passing a `Ferment.get_args` record back as keyword arguments (the
record has no `end_time` key). -/
def FermentArgs.toKwargs (a : FermentArgs) : FermentKwargs :=
  { name := a.name, hours := some a.hours, start_time := a.start_time,
    end_time := none, temp := some a.temp, double_temp := some a.double_temp,
    inoc := some a.inoc }

/-- Reconstruction `Bake(**args)` from a `Bake.get_args` record. -/
def Bake.ofArgs (a : BakeArgs) : Option Bake :=
  Bake.init (a.ferment_list.map FermentArgs.toKwargs) a.name

/-- A stage list is contiguous when every stage ends exactly where the next
one starts. -/
def contiguousList (fm : List Ferment) : Prop :=
  ∀ (i : ℕ) (fi fj : Ferment), fm[i]? = some fi → fm[i+1]? = some fj →
    fi.get_end_time = fj.start_time

/-- Every stage of the list is anchored (has a non-`None` start time). -/
def allAnchored (fm : List Ferment) : Prop :=
  ∀ f ∈ fm, f.start_time.isSome

/-- The stage at position `j` exists and is anchored. -/
def anchoredAt (fm : List Ferment) (j : ℕ) : Prop :=
  ∃ f, fm[j]? = some f ∧ f.start_time.isSome

end HalfBaked

namespace HalfBaked

/-- Claim C3: for a `Ferment` with hours `h > 0` and any `new_hours > 0`,
`change_hours(new_hours, hold)` with `hold ≠ "temp"` sets `temp` to
`old_temp - (double_temp / ln 2) * ln (new_hours / h)`, sets `hours` to
`new_hours` and leaves `inoc` unchanged; in particular doubling the hours
(with `hold = "inoc"`) lowers `temp` by exactly `double_temp` and halving
the hours raises it by exactly `double_temp`. -/
theorem change_hours_formula (f : Ferment) (h' : ℝ) (hold : String)
    (hpos : 0 < f.hours) (hpos' : 0 < h') (hhold : hold ≠ "temp") :
    (f.change_hours h' hold).temp
        = f.temp - f.double_temp / Real.log 2 * Real.log (h' / f.hours)
      ∧ (f.change_hours h' hold).hours = h'
      ∧ (f.change_hours h' hold).inoc = f.inoc
      ∧ (f.change_hours (2 * f.hours) "inoc").temp = f.temp - f.double_temp
      ∧ (f.change_hours (f.hours / 2) "inoc").temp = f.temp + f.double_temp := by
  have hne : f.hours ≠ 0 := ne_of_gt hpos
  have hlog2 : Real.log 2 ≠ 0 := ne_of_gt (Real.log_pos (by norm_num))
  refine ⟨?_, ?_, ?_, ?_, ?_⟩
  · simp [Ferment.change_hours, hhold]
  · simp [Ferment.change_hours, hhold]
  · simp [Ferment.change_hours, hhold]
  · have h2 : (2 * f.hours) / f.hours = (2:ℝ) := by
      field_simp
    simp only [Ferment.change_hours, if_pos (by decide : ("inoc":String) ≠ "temp")]
    rw [h2]
    field_simp
  · have h2 : (f.hours / 2) / f.hours = (2:ℝ)⁻¹ := by
      field_simp
      ring
    simp only [Ferment.change_hours, if_pos (by decide : ("inoc":String) ≠ "temp")]
    rw [h2, Real.log_inv]
    field_simp
    ring

/-- Witness for C3 at a concrete stage (hours 8, temp 20, double_temp 8,
inoc 10): doubling to 16 hours yields temp 12, the general formula value,
and inoc stays 10. -/
theorem change_hours_formula_witness :
    ((Ferment.mk "bulk" 8 20 8 10 none).change_hours 16 "inoc").temp
        = 20 - 8 / Real.log 2 * Real.log (16 / 8)
      ∧ ((Ferment.mk "bulk" 8 20 8 10 none).change_hours 16 "inoc").hours = 16
      ∧ ((Ferment.mk "bulk" 8 20 8 10 none).change_hours 16 "inoc").inoc = 10
      ∧ ((Ferment.mk "bulk" 8 20 8 10 none).change_hours (2 * 8) "inoc").temp = 12 := by
  have h := change_hours_formula (Ferment.mk "bulk" 8 20 8 10 none) 16 "inoc"
    (by norm_num) (by norm_num) (by decide)
  refine ⟨h.1, h.2.1, h.2.2.1, ?_⟩
  have h4 := h.2.2.2.1
  norm_num at h4 ⊢
  exact h4

/-- Claim C6: for a `Ferment` with hours `h > 0` (and a positive
`double_temp`, as the data model requires), `change_temp(t_new, "hours")`
restores `hours` to exactly `h`, sets `temp` to `t_new`, multiplies `inoc`
by `exp((ln 2 / double_temp) * (old_temp - t_new))`, and is literally the
unconditional hours/temp update followed by `change_hours(h, "temp")`. -/
theorem change_temp_hold_hours (f : Ferment) (t' : ℝ)
    (hpos : 0 < f.hours) (hdt : 0 < f.double_temp) :
    (f.change_temp t' "hours").hours = f.hours
      ∧ (f.change_temp t' "hours").temp = t'
      ∧ (f.change_temp t' "hours").inoc
          = f.inoc * Real.exp (Real.log 2 / f.double_temp * (f.temp - t'))
      ∧ f.change_temp t' "hours"
          = Ferment.change_hours
              { f with
                  hours := f.hours * Real.exp (Real.log 2 / f.double_temp * (f.temp - t')),
                  temp := t' }
              f.hours "temp" := by
  have hne : f.hours ≠ 0 := ne_of_gt hpos
  refine ⟨?_, ?_, ?_, ?_⟩
  · simp [Ferment.change_temp, Ferment.change_hours]
  · simp [Ferment.change_temp, Ferment.change_hours]
  · simp [Ferment.change_temp, Ferment.change_hours]
    exact Or.inl (mul_div_cancel_left₀ _ hne)
  · simp [Ferment.change_temp]

/-- Witness for C6 at a concrete stage (hours 8, temp 20, double_temp 8,
inoc 10) and target temp 28: hours stays 8, temp becomes 28, inoc is
multiplied by `exp((ln 2 / 8) * (20 - 28))`. -/
theorem change_temp_hold_hours_witness :
    ((Ferment.mk "bulk" 8 20 8 10 none).change_temp 28 "hours").hours = 8
      ∧ ((Ferment.mk "bulk" 8 20 8 10 none).change_temp 28 "hours").temp = 28
      ∧ ((Ferment.mk "bulk" 8 20 8 10 none).change_temp 28 "hours").inoc
          = 10 * Real.exp (Real.log 2 / 8 * (20 - 28)) := by
  have h := change_temp_hold_hours (Ferment.mk "bulk" 8 20 8 10 none) 28
    (by norm_num) (by norm_num)
  exact ⟨h.1, h.2.1, h.2.2.1⟩

/-- Counterexample to C4: `change_inoc` called with the negative argument
`-5` on a stage with `inoc = 10`, `hours = 8` does not fail at all — it
returns normally, silently producing `hours = -16` — so no change operation
surfaces a distinct domain-error kind for non-positive input. -/
theorem change_inoc_negative_no_failure :
    (Ferment.mk "bulk" 8 20 8 10 none).change_inocE (-5) "temp"
      = Except.ok (Ferment.mk "bulk" (-16) 20 8 (-5) none) := by
  norm_num [Ferment.change_inocE, pyDivE]
  intro h
  exact absurd h (by decide)

/-- Claim C4 as amended: the code defines no domain-error kinds.  On
non-positive input a change operation either propagates a raw arithmetic
fault or succeeds silently: `change_hours(new_hours <= 0)` (default hold,
positive current hours) raises `ValueError` from `math.log`;
`change_inoc(0)` raises `ZeroDivisionError` from the division; and
`change_inoc(new_inoc < 0)` does not fail, producing a negative duration. -/
theorem change_ops_raw_faults (f : Ferment) (h' i' : ℝ)
    (hpos : 0 < f.hours) (hh : h' ≤ 0) (hi : i' < 0) :
    f.change_hoursE h' "inoc" = Except.error PyErr.valueError
      ∧ f.change_inocE 0 "temp" = Except.error PyErr.zeroDivisionError
      ∧ f.change_inocE i' "temp"
          = Except.ok { f with hours := f.hours * (f.inoc / i'), inoc := i' } := by
  have hne : f.hours ≠ 0 := ne_of_gt hpos
  have hlog2 : Real.log 2 ≠ 0 := ne_of_gt (Real.log_pos (by norm_num))
  have hratio : h' / f.hours ≤ 0 := div_nonpos_of_nonpos_of_nonneg hh hpos.le
  refine ⟨?_, ?_, ?_⟩
  · simp [Ferment.change_hoursE, pyDivE, pyLogE, hne, hlog2, hratio]
  · simp [Ferment.change_inocE, pyDivE]
  · simp [Ferment.change_inocE, pyDivE, ne_of_lt hi]

/-- Witness for the amended C4 at a concrete stage (hours 8, inoc 10):
`change_hours(-1)` raises `ValueError`, `change_inoc(0)` raises
`ZeroDivisionError`, `change_inoc(-5)` succeeds. -/
theorem change_ops_raw_faults_witness :
    (Ferment.mk "bulk" 8 20 8 10 none).change_hoursE (-1) "inoc"
        = Except.error PyErr.valueError
      ∧ (Ferment.mk "bulk" 8 20 8 10 none).change_inocE 0 "temp"
          = Except.error PyErr.zeroDivisionError
      ∧ (Ferment.mk "bulk" 8 20 8 10 none).change_inocE (-5) "temp"
          = Except.ok { Ferment.mk "bulk" 8 20 8 10 none with
              hours := 8 * (10 / (-5)), inoc := (-5) } :=
  change_ops_raw_faults (Ferment.mk "bulk" 8 20 8 10 none) (-1) (-5)
    (by norm_num) (by norm_num) (by norm_num)

/-- Claim C8: when `hours` is omitted (or the falsy `0.0`) and both
`start_time` and `end_time` are given, construction derives `hours` from
only the seconds-of-day component of the delta, `(end - start).seconds /
3600`, silently discarding whole days — a 26-hour gap yields `hours = 2` —
and `change_times` with both a new start and a new end applies the same
truncation. -/
theorem hours_seconds_of_day_truncation :
    (∀ (name : String) (s e t dt ic : ℝ) (f : Ferment),
        Ferment.init name none (some s) (some e) t dt ic = some f →
          f.hours = (tdSeconds (e - s) : ℝ) / 3600)
      ∧ (∀ (name : String) (s e t dt ic : ℝ) (f : Ferment),
        Ferment.init name (some 0) (some s) (some e) t dt ic = some f →
          f.hours = (tdSeconds (e - s) : ℝ) / 3600)
      ∧ (∀ (name : String) (s t dt ic : ℝ) (f : Ferment),
        Ferment.init name none (some s) (some (s + hoursTd 26)) t dt ic = some f →
          f.hours = 2)
      ∧ (∀ (f : Ferment) (s e : ℝ) (hold : String),
          (f.change_times (some s) (some e) hold).hours
            = (tdSeconds (e - s) : ℝ) / 3600) := by
  refine ⟨?_, ?_, ?_, ?_⟩
  · intro name s e t dt ic f hf
    simp only [Ferment.init, hoursFromTimes] at hf
    cases hf
    rfl
  · intro name s e t dt ic f hf
    simp only [Ferment.init, hoursFromTimes, if_pos rfl] at hf
    cases hf
    rfl
  · intro name s t dt ic f hf
    simp only [Ferment.init, hoursFromTimes] at hf
    cases hf
    have h26 : s + hoursTd 26 - s = (93600 : ℝ) := by
      simp only [hoursTd]
      ring
    simp only [h26, tdSeconds]
    norm_num
  · intro f s e hold
    by_cases h : hold = "temp"
    · simp [Ferment.change_times, Ferment.change_hours, h]
    · simp [Ferment.change_times, Ferment.change_hours, h]

/-- Witness for C8: constructing a stage from start 0 and end 93600 seconds
(a 26-hour gap, hours omitted) yields `hours = 2`, and `change_times` over
the same pair also produces `hours = 2`. -/
theorem hours_seconds_of_day_truncation_witness :
    (∃ f : Ferment,
        Ferment.init "x" none (some 0) (some (0 + hoursTd 26)) 20 8 10 = some f
          ∧ f.hours = 2)
      ∧ ((Ferment.mk "x" 5 20 8 10 none).change_times (some 0) (some 93600) "inoc").hours
          = (tdSeconds ((93600:ℝ) - 0) : ℝ) / 3600 := by
  constructor
  · refine ⟨Ferment.mk "x" ((tdSeconds ((0 + hoursTd 26 : ℝ) - 0) : ℝ) / 3600)
      20 8 10 (some 0), rfl, ?_⟩
    exact hours_seconds_of_day_truncation.2.2.1 "x" 0 20 8 10 _ rfl
  · exact hours_seconds_of_day_truncation.2.2.2 (Ferment.mk "x" 5 20 8 10 none) 0 93600 "inoc"

end HalfBaked

namespace HalfBaked

/-- Setting a list entry to the value it already holds is the identity. -/
theorem set_getElem?_self {α : Type} (l : List α) {n : ℕ} {a : α}
    (h : l[n]? = some a) : l.set n a = l := by
  induction l generalizing n with
  | nil => rfl
  | cons x xs ih =>
    cases n with
    | zero => simp_all
    | succ m =>
      simp only [List.getElem?_cons_succ] at h
      simp [List.set, ih h]

/-- Mapping after a pointwise update that does not change the mapped value
is the identity on the mapped list. -/
theorem map_set_invariant {α β : Type} (l : List α) (j : ℕ) (a : α)
    (g : α → α) (f : α → β) (ha : l[j]? = some a) (hg : f (g a) = f a) :
    (l.set j (g a)).map f = l.map f := by
  rw [List.map_set, hg]
  apply set_getElem?_self
  rw [List.getElem?_map, ha]
  rfl

/-- A successful `pyModify` is a `List.set` at the resolved index. -/
theorem pyModify_some_spec {α : Type} {l : List α} {i : ℤ} {g : α → α}
    {l' : List α} (h : pyModify l i g = some l') :
    ∃ (j : ℕ) (a : α), l[j]? = some a ∧ l' = l.set j (g a) := by
  unfold pyModify at h
  split at h
  · cases hga : l[(pyResolve l.length i).toNat]? with
    | none => rw [hga] at h; cases h
    | some a =>
      rw [hga] at h
      exact ⟨(pyResolve l.length i).toNat, a, hga, (Option.some.inj h).symm⟩
  · cases h

/-- A `change_times` call that supplies no end time never changes any field
other than `start_time`. -/
theorem core_change_times_start (f : Ferment) (st : Option ℝ) (hold : String) :
    (f.change_times st none hold).core = f.core := by
  cases st <;> rfl

/-- The forward propagation loop preserves every field except
`start_time`. -/
theorem syncForward_core (l : List ℤ) :
    ∀ (fm fm' : List Ferment), syncForward fm l = some fm' →
      fm'.map Ferment.core = fm.map Ferment.core := by
  induction l with
  | nil =>
    intro fm fm' h
    cases h
    rfl
  | cons i rest ih =>
    intro fm fm' h
    unfold syncForward at h
    cases hprev : pyGet fm (i - 1) with
    | none => rw [hprev, Option.none_bind] at h; cases h
    | some prev =>
      rw [hprev] at h
      simp only [Option.some_bind] at h
      cases hmod : pyModify fm i
          (fun f => Ferment.change_times f prev.get_end_time none "inoc") with
      | none => rw [hmod, Option.none_bind] at h; cases h
      | some fm1 =>
        rw [hmod] at h
        simp only [Option.some_bind] at h
        obtain ⟨j, a, hja, hfm1⟩ := pyModify_some_spec hmod
        subst hfm1
        rw [ih _ _ h]
        exact map_set_invariant fm j a
          (fun f => Ferment.change_times f prev.get_end_time none "inoc")
          Ferment.core hja (core_change_times_start a prev.get_end_time "inoc")

/-- The backward propagation loop preserves every field except
`start_time`. -/
theorem syncBackward_core (l : List ℤ) :
    ∀ (fm fm' : List Ferment), syncBackward fm l = some fm' →
      fm'.map Ferment.core = fm.map Ferment.core := by
  induction l with
  | nil =>
    intro fm fm' h
    cases h
    rfl
  | cons i rest ih =>
    intro fm fm' h
    unfold syncBackward at h
    cases hnxt : pyGet fm (i + 1) with
    | none => rw [hnxt, Option.none_bind] at h; cases h
    | some nxt =>
      rw [hnxt] at h
      simp only [Option.some_bind] at h
      cases hst : nxt.start_time with
      | none => rw [hst, Option.none_bind] at h; cases h
      | some s =>
        rw [hst] at h
        simp only [Option.some_bind] at h
        cases hmod : pyModify fm i
            (fun f => Ferment.change_times f (some (s - hoursTd f.hours)) none "inoc") with
        | none => rw [hmod, Option.none_bind] at h; cases h
        | some fm1 =>
          rw [hmod] at h
          simp only [Option.some_bind] at h
          obtain ⟨j, a, hja, hfm1⟩ := pyModify_some_spec hmod
          subst hfm1
          rw [ih _ _ h]
          exact map_set_invariant fm j a
            (fun f => Ferment.change_times f (some (s - hoursTd f.hours)) none "inoc")
            Ferment.core hja
            (core_change_times_start a (some (s - hoursTd a.hours)) "inoc")

/-- Frame property of `sync_times`: only start times can change (helper,
shared by several claims). -/
theorem sync_times_core_frame (b : Bake) (k : ℤ) (b' : Bake)
    (h : b.sync_times k = some b') :
    b'.ferments.map Ferment.hours = b.ferments.map Ferment.hours
      ∧ b'.ferments.map Ferment.core = b.ferments.map Ferment.core
      ∧ b'.name = b.name ∧ b'.ferment_index = b.ferment_index := by
  have hcore : b'.ferments.map Ferment.core = b.ferments.map Ferment.core
      ∧ b'.name = b.name ∧ b'.ferment_index = b.ferment_index := by
    unfold Bake.sync_times at h
    split at h
    · cases h
      exact ⟨rfl, rfl, rfl⟩
    · cases href : findRef b.ferments (candidateIdx k b.ferments.length) with
      | none => rw [href, Option.none_bind] at h; cases h
      | some r =>
        rw [href] at h
        simp only [Option.some_bind] at h
        cases r with
        | none =>
          simp only [Option.elim] at h
          cases h
          exact ⟨rfl, rfl, rfl⟩
        | some ref =>
          simp only [Option.elim] at h
          cases hfwd : syncForward b.ferments (intRange (ref + 1) b.ferments.length) with
          | none => rw [hfwd, Option.none_bind] at h; cases h
          | some fm1 =>
            rw [hfwd] at h
            simp only [Option.some_bind] at h
            cases hbwd : syncBackward fm1 (intRangeDown (ref - 1) (-1)) with
            | none => rw [hbwd, Option.none_bind] at h; cases h
            | some fm2 =>
              rw [hbwd] at h
              simp only [Option.some_bind] at h
              cases h
              refine ⟨?_, rfl, rfl⟩
              rw [syncBackward_core _ _ _ hbwd, syncForward_core _ _ _ hfwd]
  refine ⟨?_, hcore⟩
  have : ∀ (fm : List Ferment), fm.map Ferment.hours
      = (fm.map Ferment.core).map (fun c => c.2.1) := by
    intro fm
    rw [List.map_map]
    rfl
  rw [this, this, hcore.1]

/-- Claim C2: whenever a `sync_times(k)` call completes, every stage keeps
its `hours` (indeed its whole name/hours/temp/double_temp/inoc record) and
the bake keeps its name and its `ferment_index`; only `start_time` fields
can change. -/
theorem sync_times_frame (b : Bake) (k : ℤ) (b' : Bake)
    (h : b.sync_times k = some b') :
    b'.ferments.map Ferment.hours = b.ferments.map Ferment.hours
      ∧ b'.ferments.map Ferment.core = b.ferments.map Ferment.core
      ∧ b'.name = b.name ∧ b'.ferment_index = b.ferment_index :=
  sync_times_core_frame b k b' h

/-- Witness for C2: a concrete two-stage bake (first stage anchored at 0,
second unanchored) synced at index 0 keeps both hours values. -/
theorem sync_times_frame_witness :
    (Bake.mk none
        [Ferment.mk "a" 1 20 8 10 (some 0), Ferment.mk "b" 2 20 8 10 none]
        [("a", 0), ("b", 1)]).sync_times 0
      = some (Bake.mk none
        [Ferment.mk "a" 1 20 8 10 (some 0), Ferment.mk "b" 2 20 8 10 (some 3600)]
        [("a", 0), ("b", 1)])
    ∧ (Bake.mk none
        [Ferment.mk "a" 1 20 8 10 (some 0), Ferment.mk "b" 2 20 8 10 (some 3600)]
        [("a", 0), ("b", 1)]).ferments.map Ferment.hours
      = (Bake.mk none
        [Ferment.mk "a" 1 20 8 10 (some 0), Ferment.mk "b" 2 20 8 10 none]
        [("a", 0), ("b", 1)]).ferments.map Ferment.hours := by
  have hsync : (Bake.mk none
      [Ferment.mk "a" 1 20 8 10 (some 0), Ferment.mk "b" 2 20 8 10 none]
      [("a", 0), ("b", 1)]).sync_times 0
      = some (Bake.mk none
        [Ferment.mk "a" 1 20 8 10 (some 0), Ferment.mk "b" 2 20 8 10 (some 3600)]
        [("a", 0), ("b", 1)]) := by
    norm_num [Bake.sync_times, candidateIdx, findRef, pyGet, pyModify, pyResolve,
      syncForward, syncBackward, intRange, intRangeDown, Ferment.change_times,
      Ferment.get_end_time, hoursTd, List.range_succ]
  exact ⟨hsync, (sync_times_frame _ 0 _ hsync).1⟩

end HalfBaked

namespace HalfBaked

theorem pyResolve_nonneg (n : ℕ) (i : ℤ) (h : 0 ≤ i) : pyResolve n i = i := by
  unfold pyResolve
  rw [if_neg (by omega)]

theorem pyResolve_neg (n : ℕ) (i : ℤ) (h : i < 0) : pyResolve n i = i + n := by
  unfold pyResolve
  rw [if_pos h]

theorem pyResolve_bounds {n : ℕ} {i : ℤ} (h1 : -(n:ℤ) ≤ i) (h2 : i < n) :
    0 ≤ pyResolve n i ∧ (pyResolve n i).toNat < n ∧ ((pyResolve n i).toNat : ℤ) = pyResolve n i := by
  unfold pyResolve
  split <;> omega

theorem getElem?_set_ne' {α : Type} (l : List α) (j p : ℕ) (x : α) (h : j ≠ p) :
    (l.set j x)[p]? = l[p]? := by
  induction l generalizing j p with
  | nil => rfl
  | cons y ys ih =>
    cases j with
    | zero =>
      cases p with
      | zero => omega
      | succ q => simp
    | succ j0 =>
      cases p with
      | zero => simp
      | succ q =>
        simp only [List.set, List.getElem?_cons_succ]
        exact ih j0 q (by omega)

theorem getElem?_set_self' {α : Type} (l : List α) (j : ℕ) (x : α) (h : j < l.length) :
    (l.set j x)[j]? = some x := by
  induction l generalizing j with
  | nil => simp at h
  | cons y ys ih =>
    cases j with
    | zero => simp
    | succ j0 =>
      simp only [List.set, List.getElem?_cons_succ]
      exact ih j0 (by simpa using h)

theorem getElem?_exists_of_lt {α : Type} (l : List α) (j : ℕ) (h : j < l.length) :
    ∃ a, l[j]? = some a :=
  ⟨l[j], List.getElem?_eq_getElem h⟩

theorem pyGet_natCast {α : Type} (l : List α) (j : ℕ) : pyGet l (j : ℤ) = l[j]? := by
  unfold pyGet
  rw [pyResolve_nonneg _ _ (by omega), if_pos (by omega)]
  norm_num

theorem pyGet_valid {α : Type} (l : List α) (i : ℤ)
    (h1 : -(l.length:ℤ) ≤ i) (h2 : i < l.length) :
    pyGet l i = l[(pyResolve l.length i).toNat]? := by
  obtain ⟨hge, _, _⟩ := pyResolve_bounds h1 h2
  unfold pyGet
  rw [if_pos hge]

theorem pyModify_valid {α : Type} (l : List α) (i : ℤ) (g : α → α) {a : α}
    (h1 : -(l.length:ℤ) ≤ i) (h2 : i < l.length)
    (ha : l[(pyResolve l.length i).toNat]? = some a) :
    pyModify l i g = some (l.set (pyResolve l.length i).toNat (g a)) := by
  obtain ⟨hge, _, _⟩ := pyResolve_bounds h1 h2
  unfold pyModify
  rw [if_pos hge, ha]

theorem intRange_eq_nil {a b : ℤ} (h : b ≤ a) : intRange a b = [] := by
  unfold intRange
  rw [(by omega : (b - a).toNat = 0)]
  rfl

theorem intRange_cons {a b : ℤ} (h : a < b) :
    intRange a b = a :: intRange (a + 1) b := by
  unfold intRange
  rw [(by omega : (b - a).toNat = (b - (a + 1)).toNat + 1), List.range_succ_eq_map]
  simp only [List.map_cons, List.map_map, Nat.cast_zero, add_zero, List.cons.injEq]
  refine ⟨trivial, List.map_congr_left ?_⟩
  intro k _
  simp only [Function.comp_apply]
  push_cast
  ring

theorem intRangeDown_eq_nil {a b : ℤ} (h : a ≤ b) : intRangeDown a b = [] := by
  unfold intRangeDown
  rw [(by omega : (a - b).toNat = 0)]
  rfl

theorem intRangeDown_cons {a b : ℤ} (h : b < a) :
    intRangeDown a b = a :: intRangeDown (a - 1) b := by
  unfold intRangeDown
  rw [(by omega : (a - b).toNat = ((a - 1) - b).toNat + 1), List.range_succ_eq_map]
  simp only [List.map_cons, List.map_map, Nat.cast_zero, sub_zero, List.cons.injEq]
  refine ⟨trivial, List.map_congr_left ?_⟩
  intro k _
  simp only [Function.comp_apply]
  push_cast
  ring

theorem mem_intRange {a b i : ℤ} : i ∈ intRange a b ↔ a ≤ i ∧ i < b := by
  unfold intRange
  simp only [List.mem_map, List.mem_range]
  constructor
  · rintro ⟨k, hk, rfl⟩
    omega
  · rintro ⟨h1, h2⟩
    exact ⟨(i - a).toNat, by omega, by omega⟩

theorem mem_intRangeDown {a b i : ℤ} : i ∈ intRangeDown a b ↔ b < i ∧ i ≤ a := by
  unfold intRangeDown
  simp only [List.mem_map, List.mem_range]
  constructor
  · rintro ⟨k, hk, rfl⟩
    omega
  · rintro ⟨h1, h2⟩
    exact ⟨(a - i).toNat, by omega, by omega⟩

theorem intRange_append {a b c : ℤ} (h1 : a ≤ b) (h2 : b ≤ c) :
    intRange a c = intRange a b ++ intRange b c := by
  obtain ⟨k, hk⟩ : ∃ k : ℕ, b - a = k := ⟨(b - a).toNat, by omega⟩
  induction k generalizing a with
  | zero =>
    obtain rfl : a = b := by omega
    rw [intRange_eq_nil (le_refl a), List.nil_append]
  | succ m ih =>
    rw [intRange_cons (show a < c by omega), intRange_cons (show a < b by omega),
      List.cons_append, @ih (a + 1) (by omega) (by omega)]

theorem syncForward_append (l₁ l₂ : List ℤ) :
    ∀ fm : List Ferment, syncForward fm (l₁ ++ l₂)
      = (syncForward fm l₁).bind (fun fm1 => syncForward fm1 l₂) := by
  induction l₁ with
  | nil =>
    intro fm
    simp only [List.nil_append, syncForward, Option.some_bind]
  | cons i rest ih =>
    intro fm
    simp only [List.cons_append, syncForward]
    cases pyGet fm (i - 1) with
    | none => simp only [Option.none_bind]
    | some prev =>
      simp only [Option.some_bind]
      cases pyModify fm i
          (fun f => Ferment.change_times f prev.get_end_time none "inoc") with
      | none => simp only [Option.none_bind]
      | some fm1 =>
        simp only [Option.some_bind]
        exact ih fm1

end HalfBaked

namespace HalfBaked

theorem change_times_some_start (f : Ferment) (s : ℝ) (hold : String) :
    f.change_times (some s) none hold = { f with start_time := some s } := rfl

theorem get_end_time_of_some {f : Ferment} {s : ℝ} (h : f.start_time = some s) :
    f.get_end_time = some (s + hoursTd f.hours) := by
  unfold Ferment.get_end_time
  rw [h]

theorem syncForward_cons (fm : List Ferment) (i : ℤ) (rest : List ℤ) :
    syncForward fm (i :: rest)
      = (pyGet fm (i - 1)).bind (fun prev =>
          (pyModify fm i
            (fun f => Ferment.change_times f prev.get_end_time none "inoc")).bind
              (fun fm' => syncForward fm' rest)) := rfl

theorem syncBackward_cons (fm : List Ferment) (i : ℤ) (rest : List ℤ) :
    syncBackward fm (i :: rest)
      = (pyGet fm (i + 1)).bind (fun nxt =>
          nxt.start_time.bind (fun s =>
            (pyModify fm i
              (fun f => Ferment.change_times f (some (s - hoursTd f.hours)) none "inoc")).bind
                (fun fm' => syncBackward fm' rest))) := rfl

/-- Forward propagation from position `j` (with the stage at `j - 1` already
anchored, `1 ≤ j ≤ n`): it completes, touches only positions `≥ j`, anchors
every position from `j - 1` on, and makes every pair `(p - 1, p)` for
`j ≤ p < n` contiguous. -/
theorem syncForward_spec :
    ∀ (k : ℕ) (j : ℕ) (fm : List Ferment), fm.length - j = k → 1 ≤ j →
    j ≤ fm.length → anchoredAt fm (j - 1) →
    ∃ fm', syncForward fm (intRange (j : ℤ) (fm.length : ℤ)) = some fm'
      ∧ fm'.length = fm.length
      ∧ (∀ p : ℕ, p < j → fm'[p]? = fm[p]?)
      ∧ (∀ p : ℕ, j - 1 ≤ p → p < fm.length → anchoredAt fm' p)
      ∧ (∀ p : ℕ, j ≤ p → p < fm.length →
          ∀ fi fj_, fm'[p - 1]? = some fi → fm'[p]? = some fj_ →
            fi.get_end_time = fj_.start_time) := by
  intro k
  induction k with
  | zero =>
    intro j fm hk h1 h2 hanch
    obtain rfl : j = fm.length := by omega
    rw [intRange_eq_nil (le_refl _)]
    refine ⟨fm, rfl, rfl, fun p _ => rfl, fun p hp1 hp2 => ?_, fun p hp1 hp2 => ?_⟩
    · obtain rfl : p = fm.length - 1 := by omega
      exact hanch
    · omega
  | succ m ih =>
    intro j fm hk h1 h2 hanch
    have hjn : j < fm.length := by omega
    obtain ⟨prev, hprev, hprevanch⟩ := hanch
    obtain ⟨s, hs⟩ := Option.isSome_iff_exists.mp hprevanch
    have hget : pyGet fm ((j : ℤ) - 1) = some prev := by
      rw [(by omega : ((j : ℤ) - 1) = ((j - 1 : ℕ) : ℤ)), pyGet_natCast, hprev]
    obtain ⟨cur, hcur⟩ := getElem?_exists_of_lt fm j hjn
    have hres : (pyResolve fm.length (j : ℤ)).toNat = j := by
      rw [pyResolve_nonneg _ _ (by omega)]
      omega
    have hmod : pyModify fm (j : ℤ)
        (fun f => Ferment.change_times f prev.get_end_time none "inoc")
        = some (fm.set j (Ferment.change_times cur prev.get_end_time none "inoc")) := by
      have := pyModify_valid fm (j : ℤ)
        (fun f => Ferment.change_times f prev.get_end_time none "inoc")
        (by omega) (by omega) (by rw [hres, hcur])
      rw [this, hres]
    have hend : prev.get_end_time = some (s + hoursTd prev.hours) :=
      get_end_time_of_some hs
    have hfm1j : (fm.set j (Ferment.change_times cur prev.get_end_time none "inoc"))[j]?
        = some { cur with start_time := some (s + hoursTd prev.hours) } := by
      rw [getElem?_set_self' _ _ _ hjn, hend, change_times_some_start]
    have hlen1 : (fm.set j (Ferment.change_times cur prev.get_end_time none "inoc")).length
        = fm.length := by simp
    obtain ⟨fm', hsf, hlen', hpre, hanch', hcontig'⟩ :=
      ih (j + 1) (fm.set j (Ferment.change_times cur prev.get_end_time none "inoc"))
        (by omega) (by omega) (by omega)
        (by
          refine ⟨{ cur with start_time := some (s + hoursTd prev.hours) }, ?_, rfl⟩
          simpa using hfm1j)
    have hcast : ((j + 1 : ℕ) : ℤ) = (j : ℤ) + 1 := by push_cast; ring
    rw [hlen1] at hsf
    refine ⟨fm', ?_, by rw [hlen', hlen1], ?_, ?_, ?_⟩
    · rw [intRange_cons (by exact_mod_cast hjn), syncForward_cons, hget]
      simp only [Option.some_bind]
      rw [hmod]
      simp only [Option.some_bind]
      rw [← hcast]
      exact hsf
    · intro p hp
      rw [hpre p (by omega), getElem?_set_ne' _ _ _ _ (by omega)]
    · intro p hp1 hp2
      by_cases hpj : p < j + 1
      · have hple : p = j - 1 ∨ p = j := by omega
        cases hple with
        | inl hpe =>
          subst hpe
          refine ⟨prev, ?_, hprevanch⟩
          rw [hpre _ (by omega), getElem?_set_ne' _ _ _ _ (by omega)]
          exact hprev
        | inr hpe =>
          subst hpe
          refine ⟨{ cur with start_time := some (s + hoursTd prev.hours) }, ?_, rfl⟩
          rw [hpre _ (by omega)]
          exact hfm1j
      · exact hanch' p (by omega) (by rw [hlen1]; omega)
    · intro p hp1 hp2 fi fj_ hfi hfj_
      by_cases hpj : p = j
      · subst hpj
        rw [hpre _ (by omega), getElem?_set_ne' _ _ _ _ (by omega), hprev] at hfi
        rw [hpre _ (by omega), hfm1j] at hfj_
        cases hfi
        cases hfj_
        rw [hend]
      · exact hcontig' p (by omega) (by rw [hlen1]; omega) fi fj_ hfi hfj_

end HalfBaked

namespace HalfBaked

/-- Backward propagation from position `j` down to `0` (with the stage at
`j + 1` anchored): it completes, touches only positions `≤ j`, anchors
positions `≤ j`, and makes every pair `(p, p + 1)` for `p ≤ j` contiguous. -/
theorem syncBackward_spec :
    ∀ (j : ℕ) (fm : List Ferment), j + 1 < fm.length → anchoredAt fm (j + 1) →
    ∃ fm', syncBackward fm (intRangeDown (j : ℤ) (-1)) = some fm'
      ∧ fm'.length = fm.length
      ∧ (∀ p : ℕ, j < p → fm'[p]? = fm[p]?)
      ∧ (∀ p : ℕ, p ≤ j → anchoredAt fm' p)
      ∧ (∀ p : ℕ, p ≤ j →
          ∀ fi fj_, fm'[p]? = some fi → fm'[p+1]? = some fj_ →
            fi.get_end_time = fj_.start_time) := by
  intro j
  induction j with
  | zero =>
    intro fm hn hanch
    obtain ⟨nxt, hnxt, hnxtanch⟩ := hanch
    obtain ⟨s, hs⟩ := Option.isSome_iff_exists.mp hnxtanch
    have hget : pyGet fm ((0 : ℤ) + 1) = some nxt := by
      rw [(by omega : ((0 : ℤ) + 1) = ((1 : ℕ) : ℤ)), pyGet_natCast]
      exact hnxt
    obtain ⟨cur, hcur⟩ := getElem?_exists_of_lt fm 0 (by omega)
    have hres : (pyResolve fm.length (0 : ℤ)).toNat = 0 := by
      rw [pyResolve_nonneg _ _ (by omega)]
      rfl
    have hmod : pyModify fm (0 : ℤ)
        (fun f => Ferment.change_times f (some (s - hoursTd f.hours)) none "inoc")
        = some (fm.set 0
            (Ferment.change_times cur (some (s - hoursTd cur.hours)) none "inoc")) := by
      have := pyModify_valid fm (0 : ℤ)
        (fun f => Ferment.change_times f (some (s - hoursTd f.hours)) none "inoc")
        (by omega) (by omega) (by rw [hres, hcur])
      rw [this, hres]
    have hset0 : (fm.set 0
        (Ferment.change_times cur (some (s - hoursTd cur.hours)) none "inoc"))[0]?
        = some { cur with start_time := some (s - hoursTd cur.hours) } := by
      rw [getElem?_set_self' _ _ _ (by omega), change_times_some_start]
    refine ⟨fm.set 0
        (Ferment.change_times cur (some (s - hoursTd cur.hours)) none "inoc"),
      ?_, by simp, ?_, ?_, ?_⟩
    · rw [intRangeDown_cons (by omega), Nat.cast_zero, intRangeDown_eq_nil (by omega),
        syncBackward_cons, hget]
      simp only [Option.some_bind]
      rw [hs]
      simp only [Option.some_bind]
      rw [hmod]
      simp only [Option.some_bind]
      rfl
    · intro p hp
      exact getElem?_set_ne' _ _ _ _ (by omega)
    · intro p hp
      obtain rfl : p = 0 := by omega
      exact ⟨_, hset0, rfl⟩
    · intro p hp fi fj_ hfi hfj_
      obtain rfl : p = 0 := by omega
      rw [hset0] at hfi
      rw [getElem?_set_ne' _ _ _ _ (by omega), hnxt] at hfj_
      cases hfi
      cases hfj_
      rw [get_end_time_of_some (show _ = some (s - hoursTd cur.hours) from rfl), hs]
      simp [sub_add_cancel]
  | succ j0 ih =>
    intro fm hn hanch
    obtain ⟨nxt, hnxt, hnxtanch⟩ := hanch
    obtain ⟨s, hs⟩ := Option.isSome_iff_exists.mp hnxtanch
    have hget : pyGet fm (((j0 + 1 : ℕ) : ℤ) + 1) = some nxt := by
      rw [(by push_cast; ring : (((j0 + 1 : ℕ) : ℤ) + 1) = ((j0 + 2 : ℕ) : ℤ)),
        pyGet_natCast]
      exact hnxt
    obtain ⟨cur, hcur⟩ := getElem?_exists_of_lt fm (j0 + 1) (by omega)
    have hres : (pyResolve fm.length ((j0 + 1 : ℕ) : ℤ)).toNat = j0 + 1 := by
      rw [pyResolve_nonneg _ _ (by omega)]
      omega
    have hmod : pyModify fm ((j0 + 1 : ℕ) : ℤ)
        (fun f => Ferment.change_times f (some (s - hoursTd f.hours)) none "inoc")
        = some (fm.set (j0 + 1)
            (Ferment.change_times cur (some (s - hoursTd cur.hours)) none "inoc")) := by
      have := pyModify_valid fm ((j0 + 1 : ℕ) : ℤ)
        (fun f => Ferment.change_times f (some (s - hoursTd f.hours)) none "inoc")
        (by omega) (by omega) (by rw [hres, hcur])
      rw [this, hres]
    have hsetj : (fm.set (j0 + 1)
        (Ferment.change_times cur (some (s - hoursTd cur.hours)) none "inoc"))[j0 + 1]?
        = some { cur with start_time := some (s - hoursTd cur.hours) } := by
      rw [getElem?_set_self' _ _ _ (by omega), change_times_some_start]
    have hlen1 : (fm.set (j0 + 1)
        (Ferment.change_times cur (some (s - hoursTd cur.hours)) none "inoc")).length
        = fm.length := by simp
    obtain ⟨fm2, hsb, hlen2, hunch, hanch2, hcontig2⟩ :=
      ih (fm.set (j0 + 1)
          (Ferment.change_times cur (some (s - hoursTd cur.hours)) none "inoc"))
        (by omega)
        (⟨{ cur with start_time := some (s - hoursTd cur.hours) }, hsetj, rfl⟩)
    refine ⟨fm2, ?_, by rw [hlen2, hlen1], ?_, ?_, ?_⟩
    · rw [intRangeDown_cons (by omega), syncBackward_cons, hget]
      simp only [Option.some_bind]
      rw [hs]
      simp only [Option.some_bind]
      rw [hmod]
      simp only [Option.some_bind]
      rw [(by push_cast; ring : (((j0 + 1 : ℕ) : ℤ) - 1) = ((j0 : ℕ) : ℤ))]
      exact hsb
    · intro p hp
      rw [hunch p (by omega), getElem?_set_ne' _ _ _ _ (by omega)]
    · intro p hp
      by_cases hpj : p ≤ j0
      · exact hanch2 p hpj
      · obtain rfl : p = j0 + 1 := by omega
        refine ⟨{ cur with start_time := some (s - hoursTd cur.hours) }, ?_, rfl⟩
        rw [hunch _ (by omega)]
        exact hsetj
    · intro p hp fi fj_ hfi hfj_
      by_cases hpj : p ≤ j0
      · exact hcontig2 p hpj fi fj_ hfi hfj_
      · obtain rfl : p = j0 + 1 := by omega
        rw [hunch _ (by omega), hsetj] at hfi
        rw [hunch _ (by omega), getElem?_set_ne' _ _ _ _ (by omega), hnxt] at hfj_
        cases hfi
        cases hfj_
        rw [get_end_time_of_some (show _ = some (s - hoursTd cur.hours) from rfl), hs]
        simp [sub_add_cancel]

end HalfBaked

namespace HalfBaked

/-- Forward propagation over the negative index segment `range(a, 0)` (all
subscripts resolve to positions near the end of the list): starting from an
anchored stage at the resolved position of `a - 1`, it completes, and the
last position of the list ends up anchored. -/
theorem syncForwardNeg_spec :
    ∀ (k : ℕ) (a : ℤ) (fm : List Ferment), a ≤ 0 → -(fm.length : ℤ) ≤ a - 1 →
    (0 - a).toNat = k → anchoredAt fm (pyResolve fm.length (a - 1)).toNat →
    ∃ fm', syncForward fm (intRange a 0) = some fm'
      ∧ fm'.length = fm.length
      ∧ anchoredAt fm' (fm.length - 1) := by
  intro k
  induction k with
  | zero =>
    intro a fm ha0 han hk hanch
    obtain rfl : a = 0 := by omega
    rw [intRange_eq_nil (le_refl _)]
    refine ⟨fm, rfl, rfl, ?_⟩
    have : (pyResolve fm.length ((0 : ℤ) - 1)).toNat = fm.length - 1 := by
      rw [pyResolve_neg _ _ (by omega)]
      omega
    rwa [this] at hanch
  | succ m ih =>
    intro a fm ha0 han hk hanch
    have hn1 : 1 ≤ fm.length := by omega
    have halt : a < 0 := by omega
    obtain ⟨prev, hprev, hprevanch⟩ := hanch
    have hget : pyGet fm (a - 1) = some prev := by
      rw [pyGet_valid fm (a - 1) han (by omega)]
      exact hprev
    have hresa : ((pyResolve fm.length a).toNat : ℤ) = a + fm.length := by
      rw [pyResolve_neg _ _ halt]
      omega
    obtain ⟨cur, hcur⟩ := getElem?_exists_of_lt fm (pyResolve fm.length a).toNat
      (by omega)
    have hmod : pyModify fm a
        (fun f => Ferment.change_times f prev.get_end_time none "inoc")
        = some (fm.set (pyResolve fm.length a).toNat
            (Ferment.change_times cur prev.get_end_time none "inoc")) :=
      pyModify_valid fm a _ (by omega) (by omega) hcur
    obtain ⟨s, hs⟩ := Option.isSome_iff_exists.mp hprevanch
    have hend : prev.get_end_time = some (s + hoursTd prev.hours) :=
      get_end_time_of_some hs
    have hsetj : (fm.set (pyResolve fm.length a).toNat
        (Ferment.change_times cur prev.get_end_time none "inoc"))[(pyResolve fm.length a).toNat]?
        = some { cur with start_time := some (s + hoursTd prev.hours) } := by
      rw [getElem?_set_self' _ _ _ (by omega), hend, change_times_some_start]
    have hlen1 : (fm.set (pyResolve fm.length a).toNat
        (Ferment.change_times cur prev.get_end_time none "inoc")).length = fm.length := by
      simp
    obtain ⟨fm', hsf, hlen', hanch'⟩ :=
      ih (a + 1)
        (fm.set (pyResolve fm.length a).toNat
          (Ferment.change_times cur prev.get_end_time none "inoc"))
        (by omega) (by rw [hlen1]; omega) (by omega)
        (by
          have : (pyResolve (fm.set (pyResolve fm.length a).toNat
              (Ferment.change_times cur prev.get_end_time none "inoc")).length
              (a + 1 - 1)).toNat = (pyResolve fm.length a).toNat := by
            rw [hlen1]
            rw [pyResolve_neg _ _ (by omega), pyResolve_neg _ _ (by omega)]
            omega
          rw [this]
          exact ⟨{ cur with start_time := some (s + hoursTd prev.hours) }, hsetj, rfl⟩)
    refine ⟨fm', ?_, by rw [hlen', hlen1], by rw [hlen1] at hanch'; exact hanch'⟩
    · rw [intRange_cons (by omega), syncForward_cons, hget]
      simp only [Option.some_bind]
      rw [hmod]
      simp only [Option.some_bind]
      exact hsf

theorem findRef_cons (fm : List Ferment) (i : ℤ) (rest : List ℤ) :
    findRef fm (i :: rest)
      = (pyGet fm i).bind (fun f =>
          if f.start_time.isSome then some (some i) else findRef fm rest) := rfl

/-- The reference scan over valid candidates either reports that every
candidate stage is unanchored, or returns the first anchored candidate. -/
theorem findRef_spec (fm : List Ferment) :
    ∀ (cand : List ℤ),
      (∀ i ∈ cand, -(fm.length : ℤ) ≤ i ∧ i < fm.length) →
      (findRef fm cand = some none
          ∧ ∀ i ∈ cand, ∀ f, pyGet fm i = some f → f.start_time = none)
        ∨ (∃ r, r ∈ cand ∧ findRef fm cand = some (some r)
            ∧ anchoredAt fm (pyResolve fm.length r).toNat) := by
  intro cand
  induction cand with
  | nil =>
    intro _
    left
    exact ⟨rfl, by simp⟩
  | cons i rest ih =>
    intro hvalid
    obtain ⟨hv1, hv2⟩ := hvalid i (List.mem_cons_self i rest)
    have hget : pyGet fm i = fm[(pyResolve fm.length i).toNat]? :=
      pyGet_valid _ _ hv1 hv2
    obtain ⟨f, hf⟩ := getElem?_exists_of_lt fm (pyResolve fm.length i).toNat
      ((pyResolve_bounds hv1 hv2).2.1)
    have hgetf : pyGet fm i = some f := by rw [hget, hf]
    by_cases hanch : f.start_time.isSome
    · right
      refine ⟨i, List.mem_cons_self i rest, ?_, ⟨f, hf, hanch⟩⟩
      rw [findRef_cons, hgetf]
      simp only [Option.some_bind, if_pos hanch]
    · obtain h | h := ih (fun x hx => hvalid x (List.mem_cons_of_mem i hx))
      · left
        constructor
        · rw [findRef_cons, hgetf]
          simp only [Option.some_bind, if_neg hanch]
          exact h.1
        · intro x hx g hg
          rcases List.mem_cons.mp hx with rfl | hx'
          · rw [hgetf] at hg
            cases hg
            exact Option.not_isSome_iff_eq_none.mp hanch
          · exact h.2 x hx' g hg
      · right
        obtain ⟨r, hrmem, hrfind, hranch⟩ := h
        refine ⟨r, List.mem_cons_of_mem i hrmem, ?_, hranch⟩
        rw [findRef_cons, hgetf]
        simp only [Option.some_bind, if_neg hanch]
        exact hrfind

end HalfBaked

namespace HalfBaked

theorem lt_of_getElem?_some {α : Type} {l : List α} {p : ℕ} {a : α}
    (h : l[p]? = some a) : p < l.length := by
  by_contra hge
  rw [List.getElem?_eq_none (by omega)] at h
  cases h

theorem mem_of_getElem?_some {α : Type} {l : List α} {p : ℕ} {a : α}
    (h : l[p]? = some a) : a ∈ l := by
  have hlt := lt_of_getElem?_some h
  rw [List.getElem?_eq_getElem hlt] at h
  have h2 := Option.some.inj h
  rw [← h2]
  exact List.getElem_mem hlt

theorem sync_times_eq (b : Bake) (k : ℤ) (hne : ¬ b.ferments.length = 0) :
    b.sync_times k
      = (findRef b.ferments (candidateIdx k b.ferments.length)).bind (fun r =>
          r.elim (some b) (fun ref =>
            (syncForward b.ferments (intRange (ref + 1) (b.ferments.length : ℤ))).bind
              (fun fm1 =>
                (syncBackward fm1 (intRangeDown (ref - 1) (-1))).bind (fun fm2 =>
                  some { b with ferments := fm2 })))) := by
  unfold Bake.sync_times
  rw [if_neg hne]

theorem candidateIdx_valid (b : Bake) (k : ℤ)
    (h1 : -(b.ferments.length : ℤ) ≤ k) (h2 : k < b.ferments.length) :
    ∀ i ∈ candidateIdx k b.ferments.length,
      -(b.ferments.length : ℤ) ≤ i ∧ i < b.ferments.length := by
  intro i hi
  unfold candidateIdx at hi
  rcases List.mem_cons.mp hi with rfl | hi'
  · exact ⟨h1, h2⟩
  · obtain ⟨p, hp, rfl⟩ := List.mem_map.mp hi'
    rw [List.mem_range] at hp
    constructor <;> omega

/-- Master specification of an anchored `sync_times` call: it succeeds,
preserves everything but start times, and leaves every stage anchored with
the whole schedule contiguous (for any Python-valid index, negative
included). -/
theorem sync_times_anchored_spec (b : Bake) (k : ℤ)
    (h1 : -(b.ferments.length : ℤ) ≤ k) (h2 : k < b.ferments.length)
    (hanch : ∃ f ∈ b.ferments, f.start_time.isSome) :
    ∃ fm', b.sync_times k = some { b with ferments := fm' }
      ∧ fm'.length = b.ferments.length
      ∧ fm'.map Ferment.core = b.ferments.map Ferment.core
      ∧ allAnchored fm' ∧ contiguousList fm' := by
  obtain ⟨f0, hf0, hf0s⟩ := hanch
  have hn : 0 < b.ferments.length := List.length_pos_of_mem hf0
  obtain hleft | ⟨r, hrmem, hrfind, hranch⟩ :=
    findRef_spec b.ferments (candidateIdx k b.ferments.length)
      (candidateIdx_valid b k h1 h2)
  · exfalso
    obtain ⟨p, hplt, hp⟩ := List.getElem_of_mem hf0
    have hp' : b.ferments[p]? = some f0 := by
      rw [List.getElem?_eq_getElem hplt, hp]
    have hpg : pyGet b.ferments ((p : ℕ) : ℤ) = some f0 := by
      rw [pyGet_natCast]
      exact hp'
    have hmem : ((p : ℕ) : ℤ) ∈ candidateIdx k b.ferments.length := by
      unfold candidateIdx
      exact List.mem_cons_of_mem _
        (List.mem_map.mpr ⟨p, List.mem_range.mpr hplt, rfl⟩)
    have := hleft.2 _ hmem f0 hpg
    rw [this] at hf0s
    cases hf0s
  · obtain ⟨hr1, hr2⟩ := candidateIdx_valid b k h1 h2 r hrmem
    by_cases hrsign : 0 ≤ r
    · -- non-negative reference index
      have hjr : ((r.toNat : ℕ) : ℤ) = r := Int.toNat_of_nonneg hrsign
      have hranch' : anchoredAt b.ferments r.toNat := by
        have hres : (pyResolve b.ferments.length r).toNat = r.toNat := by
          rw [pyResolve_nonneg _ _ hrsign]
        rwa [hres] at hranch
      obtain ⟨fm1, hsf, hlen1, hpre1, hanch1, hcontig1⟩ :=
        syncForward_spec (b.ferments.length - (r.toNat + 1)) (r.toNat + 1) b.ferments
          rfl (by omega) (by omega) hranch'
      have hcastr : ((r.toNat + 1 : ℕ) : ℤ) = r + 1 := by omega
      rw [hcastr] at hsf
      by_cases hjr0 : r.toNat = 0
      · have hbe : intRangeDown (r - 1) (-1) = [] := intRangeDown_eq_nil (by omega)
        refine ⟨fm1, ?_, hlen1, syncForward_core _ _ _ hsf, ?_, ?_⟩
        · rw [sync_times_eq b k (by omega), hrfind]
          simp only [Option.some_bind, Option.elim_some]
          rw [hsf]
          simp only [Option.some_bind]
          rw [hbe]
          rfl
        · intro g hg
          obtain ⟨p, hplt, hp⟩ := List.getElem_of_mem hg
          obtain ⟨g', hg', hg's⟩ := hanch1 p (by omega) (by omega)
          rw [List.getElem?_eq_getElem hplt, hp] at hg'
          cases hg'
          exact hg's
        · intro p fi fj_ hfi hfj_
          have hp1 : p + 1 < fm1.length := lt_of_getElem?_some hfj_
          exact hcontig1 (p + 1) (by omega) (by omega) fi fj_ (by simpa using hfi) hfj_
      · obtain ⟨fm2, hsb, hlen2, hunch2, hanch2, hcontig2⟩ :=
          syncBackward_spec (r.toNat - 1) fm1 (by omega)
            (by
              rw [(by omega : r.toNat - 1 + 1 = r.toNat)]
              exact hanch1 r.toNat (by omega) (by omega))
        have hcast2 : ((r.toNat - 1 : ℕ) : ℤ) = r - 1 := by omega
        refine ⟨fm2, ?_, by rw [hlen2, hlen1], ?_, ?_, ?_⟩
        · rw [sync_times_eq b k (by omega), hrfind]
          simp only [Option.some_bind, Option.elim_some]
          rw [hsf]
          simp only [Option.some_bind]
          rw [← hcast2, hsb]
          simp only [Option.some_bind]
        · rw [syncBackward_core _ _ _ hsb, syncForward_core _ _ _ hsf]
        · intro g hg
          obtain ⟨p, hplt, hp⟩ := List.getElem_of_mem hg
          have hp' : fm2[p]? = some g := by
            rw [List.getElem?_eq_getElem hplt, hp]
          by_cases hpj : p ≤ r.toNat - 1
          · obtain ⟨g', hg', hg's⟩ := hanch2 p hpj
            rw [hp'] at hg'
            cases hg'
            exact hg's
          · obtain ⟨g', hg', hg's⟩ := hanch1 p (by omega) (by omega)
            rw [← hunch2 p (by omega), hp'] at hg'
            cases hg'
            exact hg's
        · intro p fi fj_ hfi hfj_
          have hp1 : p + 1 < fm2.length := lt_of_getElem?_some hfj_
          by_cases hpj : p ≤ r.toNat - 1
          · exact hcontig2 p hpj fi fj_ hfi hfj_
          · have hfi' : fm1[p]? = some fi := by
              rw [← hunch2 p (by omega)]
              exact hfi
            have hfj' : fm1[p + 1]? = some fj_ := by
              rw [← hunch2 (p + 1) (by omega)]
              exact hfj_
            exact hcontig1 (p + 1) (by omega) (by omega) fi fj_
              (by simpa using hfi') hfj'
    · -- negative reference index
      push_neg at hrsign
      obtain ⟨fmA, hsfA, hlenA, hanchA⟩ :=
        syncForwardNeg_spec (0 - (r + 1)).toNat (r + 1) b.ferments (by omega)
          (by omega) rfl
          (by
            have hre : r + 1 - 1 = r := by ring
            rw [hre]
            exact hranch)
      obtain ⟨prev, hprev, hprevanch⟩ := hanchA
      obtain ⟨s, hs⟩ := Option.isSome_iff_exists.mp hprevanch
      have hgetm1 : pyGet fmA ((0 : ℤ) - 1) = some prev := by
        rw [pyGet_valid fmA ((0 : ℤ) - 1) (by omega) (by omega)]
        have hres : (pyResolve fmA.length ((0 : ℤ) - 1)).toNat = b.ferments.length - 1 := by
          rw [pyResolve_neg _ _ (by omega), hlenA]
          omega
        rw [hres]
        exact hprev
      obtain ⟨cur, hcur⟩ := getElem?_exists_of_lt fmA 0 (by omega)
      have hres0 : (pyResolve fmA.length (0 : ℤ)).toNat = 0 := by
        rw [pyResolve_nonneg _ _ (by omega)]
        rfl
      have hmodB : pyModify fmA (0 : ℤ)
          (fun f => Ferment.change_times f prev.get_end_time none "inoc")
          = some (fmA.set 0 (Ferment.change_times cur prev.get_end_time none "inoc")) := by
        have := pyModify_valid fmA (0 : ℤ)
          (fun f => Ferment.change_times f prev.get_end_time none "inoc")
          (by omega) (by omega) (by rw [hres0, hcur])
        rw [this, hres0]
      have hend : prev.get_end_time = some (s + hoursTd prev.hours) :=
        get_end_time_of_some hs
      have hsetB : (fmA.set 0 (Ferment.change_times cur prev.get_end_time none "inoc"))[0]?
          = some { cur with start_time := some (s + hoursTd prev.hours) } := by
        rw [getElem?_set_self' _ _ _ (by omega), hend, change_times_some_start]
      have hlenB : (fmA.set 0 (Ferment.change_times cur prev.get_end_time none "inoc")).length
          = b.ferments.length := by
        simp [hlenA]
      obtain ⟨fm1, hsf1, hlen1, hpre1, hanch1, hcontig1⟩ :=
        syncForward_spec
          ((fmA.set 0 (Ferment.change_times cur prev.get_end_time none "inoc")).length - 1)
          1 (fmA.set 0 (Ferment.change_times cur prev.get_end_time none "inoc"))
          rfl (le_refl 1) (by omega)
          ⟨{ cur with start_time := some (s + hoursTd prev.hours) }, hsetB, rfl⟩
      have hchain : syncForward b.ferments (intRange (r + 1) (b.ferments.length : ℤ))
          = some fm1 := by
        rw [intRange_append (show r + 1 ≤ 0 by omega)
            (show (0 : ℤ) ≤ b.ferments.length by omega),
          syncForward_append, hsfA]
        simp only [Option.some_bind]
        rw [intRange_cons (by omega), syncForward_cons, hgetm1]
        simp only [Option.some_bind]
        rw [hmodB]
        simp only [Option.some_bind]
        rw [(by omega : (0 : ℤ) + 1 = ((1 : ℕ) : ℤ)), (by rw [hlenB] :
          ((b.ferments.length : ℕ) : ℤ)
            = ((fmA.set 0 (Ferment.change_times cur prev.get_end_time none "inoc")).length : ℤ))]
        exact hsf1
      have hbe : intRangeDown (r - 1) (-1) = [] := intRangeDown_eq_nil (by omega)
      refine ⟨fm1, ?_, by rw [hlen1, hlenB], ?_, ?_, ?_⟩
      · rw [sync_times_eq b k (by omega), hrfind]
        simp only [Option.some_bind, Option.elim_some]
        rw [hchain]
        simp only [Option.some_bind]
        rw [hbe]
        rfl
      · rw [syncForward_core _ _ _ hsf1]
        have hA : fmA.map Ferment.core = b.ferments.map Ferment.core :=
          syncForward_core _ _ _ hsfA
        rw [← hA]
        exact map_set_invariant fmA 0 cur
          (fun f => Ferment.change_times f prev.get_end_time none "inoc")
          Ferment.core hcur (core_change_times_start cur prev.get_end_time "inoc")
      · intro g hg
        obtain ⟨p, hplt, hp⟩ := List.getElem_of_mem hg
        obtain ⟨g', hg', hg's⟩ := hanch1 p (by omega) (by omega)
        rw [List.getElem?_eq_getElem hplt, hp] at hg'
        cases hg'
        exact hg's
      · intro p fi fj_ hfi hfj_
        have hp1 : p + 1 < fm1.length := lt_of_getElem?_some hfj_
        exact hcontig1 (p + 1) (by omega) (by omega) fi fj_ (by simpa using hfi) hfj_

end HalfBaked

namespace HalfBaked

theorem sync_times_nil (b : Bake) (k : ℤ) (h : b.ferments.length = 0) :
    b.sync_times k = some b := by
  unfold Bake.sync_times
  rw [if_pos h]

theorem sync_times_unanchored (b : Bake) (k : ℤ)
    (h1 : -(b.ferments.length : ℤ) ≤ k) (h2 : k < b.ferments.length)
    (hnone : ∀ f ∈ b.ferments, f.start_time = none) :
    b.sync_times k = some b := by
  by_cases hn : b.ferments.length = 0
  · exact sync_times_nil b k hn
  · obtain hleft | ⟨r, hrmem, hrfind, hranch⟩ :=
      findRef_spec b.ferments (candidateIdx k b.ferments.length)
        (candidateIdx_valid b k h1 h2)
    · rw [sync_times_eq b k hn, hleft.1]
      simp only [Option.some_bind, Option.elim_none]
    · exfalso
      obtain ⟨f, hf, hfs⟩ := hranch
      rw [hnone f (mem_of_getElem?_some hf)] at hfs
      cases hfs

theorem sync_times_total (b : Bake) (k : ℤ)
    (hv : b.ferments.length = 0
      ∨ (-(b.ferments.length : ℤ) ≤ k ∧ k < b.ferments.length)) :
    ∃ b', b.sync_times k = some b' := by
  rcases hv with h | ⟨h1, h2⟩
  · exact ⟨b, sync_times_nil b k h⟩
  · by_cases hanch : ∃ f ∈ b.ferments, f.start_time.isSome
    · obtain ⟨fm', heq, _⟩ := sync_times_anchored_spec b k h1 h2 hanch
      exact ⟨_, heq⟩
    · push_neg at hanch
      exact ⟨b, sync_times_unanchored b k h1 h2 (fun f hf =>
        Option.not_isSome_iff_eq_none.mp (by simpa using hanch f hf))⟩

theorem syncForward_id (fm : List Ferment) (hcontig : contiguousList fm) :
    ∀ (l : List ℤ), (∀ i ∈ l, 1 ≤ i ∧ i < fm.length) → allAnchored fm →
      syncForward fm l = some fm := by
  intro l
  induction l with
  | nil => intro _ _; rfl
  | cons i rest ih =>
    intro hv hall
    obtain ⟨hi1, hi2⟩ := hv i (List.mem_cons_self i rest)
    obtain ⟨prev, hprev⟩ := getElem?_exists_of_lt fm (i.toNat - 1) (by omega)
    have hprevanch : prev.start_time.isSome := hall prev (mem_of_getElem?_some hprev)
    obtain ⟨s, hs⟩ := Option.isSome_iff_exists.mp hprevanch
    obtain ⟨cur, hcur⟩ := getElem?_exists_of_lt fm i.toNat (by omega)
    have hpair := hcontig (i.toNat - 1) prev cur hprev
      (by rw [(by omega : i.toNat - 1 + 1 = i.toNat)]; exact hcur)
    have hend : prev.get_end_time = some (s + hoursTd prev.hours) :=
      get_end_time_of_some hs
    have hcurstart : cur.start_time = some (s + hoursTd prev.hours) := by
      rw [← hpair, hend]
    have hget : pyGet fm (i - 1) = some prev := by
      rw [(by omega : i - 1 = ((i.toNat - 1 : ℕ) : ℤ)), pyGet_natCast]
      exact hprev
    have hres : (pyResolve fm.length i).toNat = i.toNat := by
      rw [pyResolve_nonneg _ _ (by omega)]
    have hmod : pyModify fm i (fun f => Ferment.change_times f prev.get_end_time none "inoc")
        = some (fm.set i.toNat (Ferment.change_times cur prev.get_end_time none "inoc")) := by
      have := pyModify_valid fm i
        (fun f => Ferment.change_times f prev.get_end_time none "inoc")
        (by omega) (by omega) (by rw [hres, hcur])
      rw [this, hres]
    have hsetid : fm.set i.toNat (Ferment.change_times cur prev.get_end_time none "inoc")
        = fm := by
      rw [hend, change_times_some_start]
      have hc : ({ cur with start_time := some (s + hoursTd prev.hours) } : Ferment)
          = cur := by
        rw [← hcurstart]
      rw [hc]
      exact set_getElem?_self fm hcur
    rw [syncForward_cons, hget]
    simp only [Option.some_bind]
    rw [hmod]
    simp only [Option.some_bind]
    rw [hsetid]
    exact ih (fun x hx => hv x (List.mem_cons_of_mem i hx)) hall

theorem syncBackward_id (fm : List Ferment) (hcontig : contiguousList fm) :
    ∀ (l : List ℤ), (∀ i ∈ l, 0 ≤ i ∧ i + 1 < fm.length) → allAnchored fm →
      syncBackward fm l = some fm := by
  intro l
  induction l with
  | nil => intro _ _; rfl
  | cons i rest ih =>
    intro hv hall
    obtain ⟨hi1, hi2⟩ := hv i (List.mem_cons_self i rest)
    obtain ⟨nxt, hnxt⟩ := getElem?_exists_of_lt fm (i.toNat + 1) (by omega)
    have hnxtanch : nxt.start_time.isSome := hall nxt (mem_of_getElem?_some hnxt)
    obtain ⟨s, hs⟩ := Option.isSome_iff_exists.mp hnxtanch
    obtain ⟨cur, hcur⟩ := getElem?_exists_of_lt fm i.toNat (by omega)
    have hcuranch : cur.start_time.isSome := hall cur (mem_of_getElem?_some hcur)
    obtain ⟨x, hx⟩ := Option.isSome_iff_exists.mp hcuranch
    have hpair := hcontig i.toNat cur nxt hcur hnxt
    have hxval : x + hoursTd cur.hours = s := by
      rw [get_end_time_of_some hx, hs] at hpair
      exact Option.some.inj hpair
    have hget : pyGet fm (i + 1) = some nxt := by
      rw [(by omega : i + 1 = ((i.toNat + 1 : ℕ) : ℤ)), pyGet_natCast]
      exact hnxt
    have hres : (pyResolve fm.length i).toNat = i.toNat := by
      rw [pyResolve_nonneg _ _ (by omega)]
    have hmod : pyModify fm i
        (fun f => Ferment.change_times f (some (s - hoursTd f.hours)) none "inoc")
        = some (fm.set i.toNat
            (Ferment.change_times cur (some (s - hoursTd cur.hours)) none "inoc")) := by
      have := pyModify_valid fm i
        (fun f => Ferment.change_times f (some (s - hoursTd f.hours)) none "inoc")
        (by omega) (by omega) (by rw [hres, hcur])
      rw [this, hres]
    have hsetid : fm.set i.toNat
        (Ferment.change_times cur (some (s - hoursTd cur.hours)) none "inoc") = fm := by
      rw [change_times_some_start]
      have hsx : s - hoursTd cur.hours = x := by
        rw [← hxval]
        ring
      have hc : ({ cur with start_time := some (s - hoursTd cur.hours) } : Ferment)
          = cur := by
        rw [hsx, ← hx]
      rw [hc]
      exact set_getElem?_self fm hcur
    rw [syncBackward_cons, hget]
    simp only [Option.some_bind]
    rw [hs]
    simp only [Option.some_bind]
    rw [hmod]
    simp only [Option.some_bind]
    rw [hsetid]
    exact ih (fun x hx => hv x (List.mem_cons_of_mem i hx)) hall

/-- On an already contiguous, fully anchored bake, `sync_times` with any
non-negative valid index is the identity. -/
theorem sync_times_id (b : Bake) (k : ℤ) (h0 : 0 ≤ k) (h2 : k < b.ferments.length)
    (hcontig : contiguousList b.ferments) (hall : allAnchored b.ferments) :
    b.sync_times k = some b := by
  have hn : ¬ b.ferments.length = 0 := by omega
  obtain ⟨f, hf⟩ := getElem?_exists_of_lt b.ferments k.toNat (by omega)
  have hfs : f.start_time.isSome := hall f (mem_of_getElem?_some hf)
  have hgetk : pyGet b.ferments k = some f := by
    rw [(by omega : k = ((k.toNat : ℕ) : ℤ)), pyGet_natCast]
    exact hf
  have hfind : findRef b.ferments (candidateIdx k b.ferments.length)
      = some (some k) := by
    unfold candidateIdx
    rw [findRef_cons, hgetk]
    simp only [Option.some_bind, if_pos hfs]
  rw [sync_times_eq b k hn, hfind]
  simp only [Option.some_bind, Option.elim_some]
  rw [syncForward_id b.ferments hcontig (intRange (k + 1) (b.ferments.length : ℤ))
    (fun i hi => by rw [mem_intRange] at hi; omega) hall]
  simp only [Option.some_bind]
  rw [syncBackward_id b.ferments hcontig (intRangeDown (k - 1) (-1))
    (fun i hi => by rw [mem_intRangeDown] at hi; omega) hall]
  simp only [Option.some_bind]

end HalfBaked

namespace HalfBaked

/-- Claim C1: for a bake whose stages all have positive hours, any
`sync_times(k)` call with a Python-valid index `k` in which at least one
stage is anchored completes, leaves every stage with a non-`None`
start time, and makes `ferments[i].get_end_time() = ferments[i+1].start_time`
for every adjacent pair. -/
theorem sync_times_contiguity (b : Bake) (k : ℤ)
    (hpos : ∀ f ∈ b.ferments, 0 < f.hours)
    (h1 : -(b.ferments.length : ℤ) ≤ k) (h2 : k < b.ferments.length)
    (hanch : ∃ f ∈ b.ferments, f.start_time.isSome) :
    ∃ b', b.sync_times k = some b'
      ∧ (∀ f ∈ b'.ferments, f.start_time.isSome)
      ∧ ∀ (i : ℕ) (fi fj : Ferment), b'.ferments[i]? = some fi →
          b'.ferments[i+1]? = some fj → fi.get_end_time = fj.start_time := by
  obtain ⟨fm', heq, _, _, hall, hcontig⟩ := sync_times_anchored_spec b k h1 h2 hanch
  exact ⟨_, heq, hall, fun i fi fj hfi hfj => hcontig i fi fj hfi hfj⟩

/-- Witness for C1: a two-stage bake (1 h anchored at 0, then 2 h
unanchored) synced at index 0 ends fully anchored and contiguous. -/
theorem sync_times_contiguity_witness :
    ∃ b', (Bake.mk none
        [Ferment.mk "a" 1 20 8 10 (some 0), Ferment.mk "b" 2 20 8 10 none]
        [("a", 0), ("b", 1)]).sync_times 0 = some b'
      ∧ (∀ f ∈ b'.ferments, f.start_time.isSome)
      ∧ ∀ (i : ℕ) (fi fj : Ferment), b'.ferments[i]? = some fi →
          b'.ferments[i+1]? = some fj → fi.get_end_time = fj.start_time := by
  refine sync_times_contiguity _ 0 ?_ (by norm_num) (by norm_num) ?_
  · intro f hf
    simp only [List.mem_cons, List.not_mem_nil, or_false] at hf
    rcases hf with rfl | rfl <;> norm_num
  · exact ⟨Ferment.mk "a" 1 20 8 10 (some 0), by simp, rfl⟩

/-- Counterexample to C5: `sync_times(-1)` is accepted by the code (C10) but
is not idempotent.  On a one-stage bake anchored at 0 with 1 hour, each
`sync_times(-1)` call shifts the stage by its own duration: the first call
moves the start to 3600 s, the second to 7200 s, so the second call does
change a start time. -/
theorem sync_times_neg_one_not_idempotent :
    (Bake.mk none [Ferment.mk "a" 1 20 8 10 (some 0)] [("a", 0)]).sync_times (-1)
        = some (Bake.mk none [Ferment.mk "a" 1 20 8 10 (some 3600)] [("a", 0)])
      ∧ (Bake.mk none [Ferment.mk "a" 1 20 8 10 (some 3600)] [("a", 0)]).sync_times (-1)
          = some (Bake.mk none [Ferment.mk "a" 1 20 8 10 (some 7200)] [("a", 0)])
      ∧ (Bake.mk none [Ferment.mk "a" 1 20 8 10 (some 7200)] [("a", 0)])
          ≠ (Bake.mk none [Ferment.mk "a" 1 20 8 10 (some 3600)] [("a", 0)]) := by
  refine ⟨?_, ?_, ?_⟩
  · norm_num [Bake.sync_times, candidateIdx, findRef, findRef_cons, pyGet, pyModify,
      pyResolve, syncForward, syncBackward, intRange, intRangeDown,
      Ferment.change_times, Ferment.get_end_time, hoursTd, List.range_succ]
  · norm_num [Bake.sync_times, candidateIdx, findRef, findRef_cons, pyGet, pyModify,
      pyResolve, syncForward, syncBackward, intRange, intRangeDown,
      Ferment.change_times, Ferment.get_end_time, hoursTd, List.range_succ]
  · intro h
    have := congrArg (fun b => b.ferments) h
    simp only [List.cons.injEq, Ferment.mk.injEq, Option.some.injEq, and_true,
      true_and] at this
    norm_num at this

/-- Claim C5 as amended: for every non-negative valid index `k` (the
counterexample shows idempotence fails for the Python-valid negative
indices), running `sync_times(k)` twice with no intervening mutation yields
the state of a single run: the second call returns its input unchanged. -/
theorem sync_times_idempotent (b : Bake) (k : ℤ) (b' : Bake)
    (h0 : 0 ≤ k) (h2 : k < b.ferments.length)
    (h : b.sync_times k = some b') :
    b'.sync_times k = some b' := by
  by_cases hanch : ∃ f ∈ b.ferments, f.start_time.isSome
  · obtain ⟨fm', heq, hlen, _, hall, hcontig⟩ :=
      sync_times_anchored_spec b k (by omega) h2 hanch
    have hb' : b' = { b with ferments := fm' } :=
      Option.some.inj (h.symm.trans heq)
    subst hb'
    exact sync_times_id _ k h0 (by simpa [hlen] using h2) hcontig hall
  · push_neg at hanch
    have hnone : ∀ f ∈ b.ferments, f.start_time = none := fun f hf =>
      Option.not_isSome_iff_eq_none.mp (by simpa using hanch f hf)
    have hb : b.sync_times k = some b :=
      sync_times_unanchored b k (by omega) h2 hnone
    have hb' : b' = b := Option.some.inj (h.symm.trans hb)
    subst hb'
    exact hb

/-- Witness for the amended C5: on a one-stage bake anchored at 0, the
second `sync_times(0)` call returns its input unchanged. -/
theorem sync_times_idempotent_witness :
    (Bake.mk none [Ferment.mk "a" 1 20 8 10 (some 0)] [("a", 0)]).sync_times 0
      = some (Bake.mk none [Ferment.mk "a" 1 20 8 10 (some 0)] [("a", 0)]) := by
  have hfirst : (Bake.mk none [Ferment.mk "a" 1 20 8 10 (some 0)] [("a", 0)]).sync_times 0
      = some (Bake.mk none [Ferment.mk "a" 1 20 8 10 (some 0)] [("a", 0)]) := by
    norm_num [Bake.sync_times, candidateIdx, findRef, findRef_cons, pyGet, pyModify,
      pyResolve, syncForward, syncBackward, intRange, intRangeDown,
      Ferment.change_times, Ferment.get_end_time, hoursTd, List.range_succ]
  exact sync_times_idempotent _ 0 _ (by norm_num) (by norm_num) hfirst

end HalfBaked

namespace HalfBaked

theorem map_insertIdx' {α β : Type} (f : α → β) :
    ∀ (j : ℕ) (l : List α) (x : α),
      (l.insertIdx j x).map f = (l.map f).insertIdx j (f x) := by
  intro j
  induction j with
  | zero =>
    intro l x
    rw [List.insertIdx_zero, List.insertIdx_zero]
    rfl
  | succ m ih =>
    intro l x
    cases l with
    | nil => rfl
    | cons y ys =>
      rw [List.insertIdx_succ_cons, List.map_cons, List.map_cons,
        List.insertIdx_succ_cons, ih]

theorem eraseIdx_last {α : Type} :
    ∀ (l : List α), l.eraseIdx (l.length - 1) = l.dropLast := by
  intro l
  induction l with
  | nil => rfl
  | cons x xs ih =>
    cases xs with
    | nil => rfl
    | cons y ys =>
      have hlen : (x :: y :: ys).length - 1 = (y :: ys).length - 1 + 1 := by
        simp only [List.length_cons]
        omega
      rw [hlen]
      show x :: ((y :: ys).eraseIdx ((y :: ys).length - 1)) = _
      rw [ih]
      rfl

/-- The keys of the stored name-to-index dict are exactly the stage names. -/
theorem mkFermentIndex_keys (l : List Ferment) :
    (mkFermentIndex l).map Prod.fst = l.map Ferment.name := by
  unfold mkFermentIndex
  rw [List.map_map]
  have h1 : (Prod.fst ∘ fun p : ℕ × Ferment => (p.2.name, p.1))
      = Ferment.name ∘ Prod.snd := rfl
  rw [h1, ← List.map_map, List.enum_map_snd]

theorem mkFermentIndex_length (l : List Ferment) :
    (mkFermentIndex l).length = l.length := by
  unfold mkFermentIndex
  rw [List.length_map, List.enum_length]

/-- The stored dict depends only on the stage names. -/
theorem mkFermentIndex_congr {l₁ l₂ : List Ferment}
    (h : l₁.map Ferment.name = l₂.map Ferment.name) :
    mkFermentIndex l₁ = mkFermentIndex l₂ := by
  have key : ∀ l : List Ferment, mkFermentIndex l
      = (l.map Ferment.name).enum.map (fun p => (p.2, p.1)) := by
    intro l
    rw [List.enum_map, List.map_map]
    rfl
  rw [key, key, h]

/-- The iterated underscore-append names tried by the dedup loop. -/
def underscoreIter (nm : String) : ℕ → String
  | 0 => nm
  | k+1 => underscoreIter (nm ++ "_") k

theorem underscoreIter_length (k : ℕ) :
    ∀ nm : String, (underscoreIter nm k).length = nm.length + k := by
  induction k with
  | zero => intro nm; rfl
  | succ m ih =>
    intro nm
    show (underscoreIter (nm ++ "_") m).length = nm.length + (m + 1)
    rw [ih (nm ++ "_"), String.length_append]
    have h1 : "_".length = 1 := rfl
    omega

theorem dedupName_of_iter_fresh (taken : List String) :
    ∀ (fuel : ℕ) (nm : String), (∃ k < fuel, underscoreIter nm k ∉ taken) →
      dedupName taken fuel nm ∉ taken := by
  intro fuel
  induction fuel with
  | zero =>
    intro nm h
    obtain ⟨k, hk, _⟩ := h
    exact absurd hk (Nat.not_lt_zero k)
  | succ m ih =>
    intro nm h
    by_cases hmem : nm ∈ taken
    · show dedupName taken (m + 1) nm ∉ taken
      unfold dedupName
      rw [if_pos hmem]
      apply ih
      obtain ⟨k, hk, hkf⟩ := h
      cases k with
      | zero => exact absurd hmem hkf
      | succ k0 => exact ⟨k0, by omega, hkf⟩
    · show dedupName taken (m + 1) nm ∉ taken
      unfold dedupName
      rw [if_neg hmem]
      exact hmem

theorem exists_iter_fresh (taken : List String) (nm : String) :
    ∃ k < taken.length + 1, underscoreIter nm k ∉ taken := by
  by_contra hall
  push_neg at hall
  have hinj : Set.InjOn (underscoreIter nm) (Finset.range (taken.length + 1)) := by
    intro i _ j _ hij
    have := congrArg String.length hij
    rw [underscoreIter_length, underscoreIter_length] at this
    omega
  have hsub : (Finset.range (taken.length + 1)).image (underscoreIter nm)
      ⊆ taken.toFinset := by
    intro x hx
    obtain ⟨k, hk, rfl⟩ := Finset.mem_image.mp hx
    rw [Finset.mem_range] at hk
    exact List.mem_toFinset.mpr (hall k hk)
  have hcard := Finset.card_le_card hsub
  rw [Finset.card_image_of_injOn hinj, Finset.card_range] at hcard
  have := taken.toFinset_card_le
  omega

/-- The underscore loop of `add_ferment`, run with its actual fuel, always
produces a name not yet taken. -/
theorem dedupName_fresh (taken : List String) (nm : String) :
    dedupName taken (taken.length + 1) nm ∉ taken :=
  dedupName_of_iter_fresh taken (taken.length + 1) nm (exists_iter_fresh taken nm)

theorem dedupName_id (taken : List String) (fuel : ℕ) (nm : String) (h : nm ∉ taken) :
    dedupName taken (fuel + 1) nm = nm := by
  unfold dedupName
  rw [if_neg h]

theorem find?_of_unique {α : Type} (p : α → Bool) :
    ∀ (d : List α) (a : α), a ∈ d → p a → (∀ x ∈ d, p x → x = a) →
      d.find? p = some a := by
  intro d
  induction d with
  | nil => intro a ha; cases ha
  | cons x xs ih =>
    intro a ha hpa huniq
    by_cases hx : p x
    · rw [List.find?_cons_of_pos xs hx, huniq x (List.mem_cons_self x xs) hx]
    · rw [List.find?_cons_of_neg xs (by simpa using hx)]
      apply ih a ?_ hpa (fun y hy hpy => huniq y (List.mem_cons_of_mem x hy) hpy)
      rcases List.mem_cons.mp ha with rfl | h'
      · exact absurd hpa hx
      · exact h'

theorem mem_mkFermentIndex {l : List Ferment} {nm : String} {j : ℕ} :
    (nm, j) ∈ mkFermentIndex l ↔ ∃ f, l[j]? = some f ∧ f.name = nm := by
  unfold mkFermentIndex
  rw [List.mem_map]
  constructor
  · rintro ⟨⟨i, g⟩, hmem, heq⟩
    have h2 : l[i]? = some g := List.mk_mem_enum_iff_getElem?.mp hmem
    simp only [Prod.mk.injEq] at heq
    obtain ⟨h3, h4⟩ := heq
    subst h4
    exact ⟨g, h2, h3⟩
  · rintro ⟨f, hf, rfl⟩
    exact ⟨(j, f), List.mk_mem_enum_iff_getElem?.mpr hf, rfl⟩

/-- With pairwise-distinct names, the stored dict maps each stage's name to
its position. -/
theorem pyDictGet_mkFermentIndex (l : List Ferment)
    (hnd : (l.map Ferment.name).Nodup) (i : ℕ) (f : Ferment)
    (hf : l[i]? = some f) :
    pyDictGet (mkFermentIndex l) f.name = some i := by
  have hmem : (f.name, i) ∈ (mkFermentIndex l).reverse :=
    List.mem_reverse.mpr (mem_mkFermentIndex.mpr ⟨f, hf, rfl⟩)
  have hilt : i < l.length := lt_of_getElem?_some hf
  have huniq : ∀ x ∈ (mkFermentIndex l).reverse,
      (x.1 == f.name) = true → x = (f.name, i) := by
    rintro ⟨nm, j⟩ hx hpx
    rw [beq_iff_eq] at hpx
    subst hpx
    obtain ⟨g, hg, hgname⟩ := mem_mkFermentIndex.mp (List.mem_reverse.mp hx)
    have hjlt : j < l.length := lt_of_getElem?_some hg
    have hnames : (l.map Ferment.name)[j]? = (l.map Ferment.name)[i]? := by
      rw [List.getElem?_map, List.getElem?_map, hg, hf]
      simp [hgname]
    have hji : j = i := by
      rw [List.getElem?_eq_getElem (by simpa using hjlt),
        List.getElem?_eq_getElem (by simpa using hilt)] at hnames
      have := Option.some.inj hnames
      exact List.Nodup.getElem_inj_iff hnd |>.mp this
    rw [hji]
  unfold pyDictGet
  rw [find?_of_unique _ ((mkFermentIndex l).reverse) (f.name, i) hmem
    (by simp) huniq]
  rfl

end HalfBaked

namespace HalfBaked

theorem init_some_hours (nm : String) (h : ℝ) (st : Option ℝ) (t dt ic : ℝ)
    (hne : h ≠ 0) :
    Ferment.init nm (some h) st none t dt ic
      = some { name := nm, hours := h, temp := t, double_temp := dt, inoc := ic,
               start_time := st } := by
  cases st <;> simp [Ferment.init, hoursFromTimes, hne]

/-- Claim C7, stage half (helper): rebuilding a stage from its own
`get_args` record reproduces it exactly (its `hours` being truthy). -/
theorem ofArgs_get_args (f : Ferment) (hne : f.hours ≠ 0) :
    Ferment.ofArgs f.get_args = some f := by
  unfold Ferment.ofArgs Ferment.get_args
  rw [init_some_hours _ _ _ _ _ _ hne]

theorem initK_toKwargs (f : Ferment) (hne : f.hours ≠ 0) :
    Ferment.initK (applyBakeDefaults (FermentArgs.toKwargs f.get_args)) = some f := by
  unfold applyBakeDefaults FermentArgs.toKwargs Ferment.get_args Ferment.initK
  simp only [if_neg (by simp : ¬ (some f.temp = none)), Option.getD_some]
  rw [init_some_hours _ _ _ _ _ _ hne]

theorem getElem?_append_left' {α : Type} (l₁ l₂ : List α) (n : ℕ)
    (h : n < l₁.length) : (l₁ ++ l₂)[n]? = l₁[n]? := by
  rw [List.getElem?_append, if_pos h]

theorem contiguousList_append_left {l₁ l₂ : List Ferment}
    (h : contiguousList (l₁ ++ l₂)) : contiguousList l₁ := by
  intro i fi fj hfi hfj
  have hl : i + 1 < l₁.length := lt_of_getElem?_some hfj
  apply h i fi fj
  · rw [getElem?_append_left' _ _ _ (by omega)]
    exact hfi
  · rw [getElem?_append_left' _ _ _ hl]
    exact hfj

theorem names_eq_of_core_eq {l₁ l₂ : List Ferment}
    (h : l₁.map Ferment.core = l₂.map Ferment.core) :
    l₁.map Ferment.name = l₂.map Ferment.name := by
  have key : ∀ l : List Ferment, l.map Ferment.name
      = (l.map Ferment.core).map (fun c => c.1) := by
    intro l
    rw [List.map_map]
    rfl
  rw [key, key, h]

theorem pyInsert_perm {α : Type} (l : List α) (i : ℤ) (x : α) :
    (pyInsert l i x).Perm (x :: l) := by
  unfold pyInsert
  exact List.perm_insertIdx x l (by omega)

theorem pyInsert_append {α : Type} (l : List α) (x : α) :
    pyInsert l (l.length : ℤ) x = l ++ [x] := by
  unfold pyInsert
  rw [pyResolve_nonneg _ _ (by omega)]
  rw [(by omega : (max 0 (min (l.length : ℤ) (l.length : ℤ))).toNat = l.length)]
  exact List.insertIdx_length_self l x

theorem pyInsert_neg_one {α : Type} (l : List α) (x : α) (h : 1 ≤ l.length) :
    pyInsert l (-1) x = l.insertIdx (l.length - 1) x := by
  unfold pyInsert
  rw [pyResolve_neg _ _ (by omega)]
  rw [(by omega : (max 0 (min ((-1) + (l.length : ℤ)) (l.length : ℤ))).toNat
    = l.length - 1)]

theorem addAll_cons (b : Bake) (k : FermentKwargs) (rest : List FermentKwargs) :
    Bake.addAll b (k :: rest) = (b.add_ferment none k).bind (fun b' => b'.addAll rest) :=
  rfl

theorem add_ferment_eq (b : Bake) (index : Option ℤ) (args : FermentKwargs)
    (f0 : Ferment) (nm : String) (idx : ℤ) (fmIns : List Ferment)
    (hinit : Ferment.initK (applyBakeDefaults args) = some f0)
    (hnm : nm = dedupName (b.ferment_index.map Prod.fst)
      (b.ferment_index.length + 1) f0.name)
    (hidx : idx = index.elim (b.ferments.length : ℤ) (fun i => i))
    (hfm : fmIns = pyInsert b.ferments idx ({ f0 with name := nm })) :
    b.add_ferment index args
      = Bake.sync_times (Bake.update_ferment_index { b with ferments := fmIns }) idx := by
  unfold Bake.add_ferment
  rw [hinit]
  simp only [Option.some_bind]
  rw [hfm, hidx, hnm]

/-- Appending one stage (fresh name, truthy hours) to a consistent bake via
`add_ferment` with no index just appends it: the dedup loop leaves the name
alone, the insert is an append, and the sync is the identity on an
all-unanchored or contiguous-and-anchored schedule. -/
theorem add_ferment_snoc (bname : Option String) (pre : List Ferment) (f : Ferment)
    (hne : f.hours ≠ 0) (hfresh : f.name ∉ pre.map Ferment.name)
    (hstate : (∀ g ∈ pre ++ [f], g.start_time = none)
      ∨ (allAnchored (pre ++ [f]) ∧ contiguousList (pre ++ [f]))) :
    (Bake.mk bname pre (mkFermentIndex pre)).add_ferment none
        (FermentArgs.toKwargs f.get_args)
      = some (Bake.mk bname (pre ++ [f]) (mkFermentIndex (pre ++ [f]))) := by
  have htaken : (mkFermentIndex pre).map Prod.fst = pre.map Ferment.name :=
    mkFermentIndex_keys pre
  have hded : dedupName ((mkFermentIndex pre).map Prod.fst)
      ((mkFermentIndex pre).length + 1) f.name = f.name := by
    rw [mkFermentIndex_length, htaken]
    exact dedupName_id _ _ _ hfresh
  rw [add_ferment_eq (Bake.mk bname pre (mkFermentIndex pre)) none
    (FermentArgs.toKwargs f.get_args) f f.name (pre.length : ℤ) (pre ++ [f])
    (initK_toKwargs f hne) (by rw [hded]) rfl
    (by
      have hfeta : ({ f with name := f.name } : Ferment) = f := rfl
      rw [hfeta, pyInsert_append])]
  have hupd : Bake.update_ferment_index
      { Bake.mk bname pre (mkFermentIndex pre) with ferments := pre ++ [f] }
      = Bake.mk bname (pre ++ [f]) (mkFermentIndex (pre ++ [f])) := rfl
  rw [hupd]
  have hlen : (Bake.mk bname (pre ++ [f]) (mkFermentIndex (pre ++ [f]))).ferments.length
      = pre.length + 1 := by simp
  rcases hstate with hnone | ⟨hall, hcontig⟩
  · exact sync_times_unanchored _ _ (by rw [hlen]; omega) (by rw [hlen]; push_cast; omega)
      hnone
  · exact sync_times_id _ _ (by omega) (by rw [hlen]; push_cast; omega) hcontig hall

end HalfBaked

namespace HalfBaked

/-- Rebuilding a consistent bake stage by stage reproduces its stage list
exactly. -/
theorem addAll_reconstruct (bname : Option String) :
    ∀ (post pre : List Ferment),
      ((pre ++ post).map Ferment.name).Nodup →
      (∀ g ∈ pre ++ post, g.hours ≠ 0) →
      ((∀ g ∈ pre ++ post, g.start_time = none)
        ∨ (allAnchored (pre ++ post) ∧ contiguousList (pre ++ post))) →
      Bake.addAll (Bake.mk bname pre (mkFermentIndex pre))
          (post.map (fun g => FermentArgs.toKwargs g.get_args))
        = some (Bake.mk bname (pre ++ post) (mkFermentIndex (pre ++ post))) := by
  intro post
  induction post with
  | nil =>
    intro pre _ _ _
    simp only [List.map_nil, List.append_nil]
    rfl
  | cons f rest ih =>
    intro pre hnd hne hstate
    have happ : pre ++ f :: rest = (pre ++ [f]) ++ rest := by simp
    have hfresh : f.name ∉ pre.map Ferment.name := by
      rw [List.map_append] at hnd
      obtain ⟨h1, h2, hdisj⟩ := List.nodup_append.mp hnd
      intro hmem
      exact hdisj hmem (by simp)
    have hsub : ∀ g ∈ pre ++ [f], g ∈ pre ++ f :: rest := by
      intro g hg
      rcases List.mem_append.mp hg with h | h
      · exact List.mem_append.mpr (Or.inl h)
      · simp only [List.mem_singleton] at h
        subst h
        exact List.mem_append.mpr (Or.inr (List.mem_cons_self g rest))
    have hstate1 : (∀ g ∈ pre ++ [f], g.start_time = none)
        ∨ (allAnchored (pre ++ [f]) ∧ contiguousList (pre ++ [f])) := by
      rcases hstate with h | ⟨h1, h2⟩
      · exact Or.inl (fun g hg => h g (hsub g hg))
      · refine Or.inr ⟨fun g hg => h1 g (hsub g hg), ?_⟩
        rw [happ] at h2
        exact contiguousList_append_left h2
    simp only [List.map_cons]
    rw [addAll_cons,
      add_ferment_snoc bname pre f (hne f (hsub f (by simp))) hfresh hstate1]
    simp only [Option.some_bind]
    have := ih (pre ++ [f]) (by rw [← happ]; exact hnd)
      (by rw [← happ]; exact hne) (by rw [← happ]; exact hstate)
    rw [this, happ]

/-- Claim C7: serialize-then-reconstruct round trips.  A stage rebuilt from
`Ferment.get_args` (truthy hours) is reproduced exactly, and a bake rebuilt
from `Bake.get_args` (distinct names, truthy hours, stored index in sync,
and its schedule either fully unanchored or anchored-and-contiguous, as
every bake produced by the class invariantly is) is reproduced exactly:
name, hours, temp, double_temp, inoc and start_time of every stage
unchanged. -/
theorem get_args_roundtrip :
    (∀ f : Ferment, f.hours ≠ 0 → Ferment.ofArgs f.get_args = some f)
      ∧ (∀ b : Bake, (∀ g ∈ b.ferments, g.hours ≠ 0) →
          (b.ferments.map Ferment.name).Nodup →
          b.ferment_index = mkFermentIndex b.ferments →
          ((∀ g ∈ b.ferments, g.start_time = none)
            ∨ (allAnchored b.ferments ∧ contiguousList b.ferments)) →
          Bake.ofArgs b.get_args = some b) := by
  constructor
  · exact fun f h => ofArgs_get_args f h
  · intro b hne hnd hidx hstate
    obtain ⟨bname, fm, bidx⟩ := b
    simp only at hidx hne hnd hstate
    subst hidx
    unfold Bake.ofArgs Bake.get_args Bake.init
    simp only [List.map_map]
    have hstart : Bake.update_ferment_index
        { name := bname, ferments := [], ferment_index := [] }
        = Bake.mk bname [] (mkFermentIndex []) := rfl
    rw [hstart]
    have := addAll_reconstruct bname fm [] (by simpa) (by simpa) (by simpa)
    simpa using this

/-- Witness for C7: a one-stage bake (hours 2, unanchored, consistent
index) and a lone stage both survive the round trip. -/
theorem get_args_roundtrip_witness :
    Ferment.ofArgs (Ferment.mk "a" 2 20 8 10 (some 5)).get_args
        = some (Ferment.mk "a" 2 20 8 10 (some 5))
      ∧ Bake.ofArgs (Bake.mk none [Ferment.mk "a" 2 20 8 10 none]
            (mkFermentIndex [Ferment.mk "a" 2 20 8 10 none])).get_args
          = some (Bake.mk none [Ferment.mk "a" 2 20 8 10 none]
            (mkFermentIndex [Ferment.mk "a" 2 20 8 10 none])) := by
  constructor
  · exact get_args_roundtrip.1 (Ferment.mk "a" 2 20 8 10 (some 5)) (by norm_num)
  · refine get_args_roundtrip.2 _ ?_ ?_ rfl (Or.inl ?_)
    · intro g hg
      simp only [List.mem_singleton] at hg
      subst hg
      norm_num
    · simp
    · intro g hg
      simp only [List.mem_singleton] at hg
      subst hg
      rfl

end HalfBaked

namespace HalfBaked

/-- After `add_ferment`, stage names stay pairwise distinct and the stored
dict stays in sync (helper for C9). -/
theorem add_ferment_preserves (b : Bake) (idx : Option ℤ) (args : FermentKwargs)
    (b' : Bake) (hnd : (b.ferments.map Ferment.name).Nodup)
    (hidx : b.ferment_index = mkFermentIndex b.ferments)
    (h : b.add_ferment idx args = some b') :
    (b'.ferments.map Ferment.name).Nodup
      ∧ b'.ferment_index = mkFermentIndex b'.ferments := by
  cases hinit : Ferment.initK (applyBakeDefaults args) with
  | none =>
    unfold Bake.add_ferment at h
    rw [hinit, Option.none_bind] at h
    cases h
  | some f0 =>
    obtain ⟨nmD, hnmD⟩ : ∃ nm, nm = dedupName (b.ferment_index.map Prod.fst)
        (b.ferment_index.length + 1) f0.name := ⟨_, rfl⟩
    obtain ⟨idxD, hidxD⟩ : ∃ j, j = idx.elim (b.ferments.length : ℤ) (fun i => i) :=
      ⟨_, rfl⟩
    obtain ⟨fmD, hfmD⟩ : ∃ fm, fm = pyInsert b.ferments idxD ({ f0 with name := nmD }) :=
      ⟨_, rfl⟩
    rw [add_ferment_eq b idx args f0 nmD idxD fmD hinit hnmD hidxD hfmD] at h
    obtain ⟨_, hcore, _, hindex⟩ := sync_times_core_frame _ _ _ h
    have hnames : b'.ferments.map Ferment.name = fmD.map Ferment.name :=
      names_eq_of_core_eq hcore
    have hfresh : nmD ∉ b.ferments.map Ferment.name := by
      have hkeys : b.ferment_index.map Prod.fst = b.ferments.map Ferment.name := by
        rw [hidx, mkFermentIndex_keys]
      have hlen : b.ferment_index.length = (b.ferment_index.map Prod.fst).length := by
        rw [List.length_map]
      rw [← hkeys, hnmD, hlen]
      exact dedupName_fresh _ _
    have hnodup : (fmD.map Ferment.name).Nodup := by
      have hperm := (pyInsert_perm b.ferments idxD ({ f0 with name := nmD })).map
        Ferment.name
      rw [hfmD, hperm.nodup_iff, List.map_cons, List.nodup_cons]
      exact ⟨hfresh, hnd⟩
    constructor
    · rw [hnames]
      exact hnodup
    · rw [hindex, hfmD]
      exact mkFermentIndex_congr (hfmD ▸ hnames.symm)

/-- After `remove_ferment`, stage names stay pairwise distinct and the
stored dict stays in sync (helper for C9). -/
theorem remove_ferment_preserves (b : Bake) (i : ℤ) (b' : Bake)
    (hnd : (b.ferments.map Ferment.name).Nodup)
    (h : b.remove_ferment i = some b') :
    (b'.ferments.map Ferment.name).Nodup
      ∧ b'.ferment_index = mkFermentIndex b'.ferments := by
  unfold Bake.remove_ferment at h
  cases hdel : pyDelete b.ferments i with
  | none =>
    rw [hdel, Option.none_bind] at h
    cases h
  | some fm =>
    rw [hdel, Option.some_bind] at h
    have hfm : fm = b.ferments.eraseIdx (pyResolve b.ferments.length i).toNat := by
      unfold pyDelete at hdel
      split at hdel
      · exact (Option.some.inj hdel).symm
      · cases hdel
    obtain ⟨_, hcore, _, hindex⟩ := sync_times_core_frame _ _ _ h
    have hnames : b'.ferments.map Ferment.name = fm.map Ferment.name :=
      names_eq_of_core_eq hcore
    have hsub : (fm.map Ferment.name).Sublist (b.ferments.map Ferment.name) := by
      rw [hfm]
      exact (List.eraseIdx_sublist _ _).map Ferment.name
    constructor
    · rw [hnames]
      exact hnd.sublist hsub
    · rw [hindex]
      exact mkFermentIndex_congr hnames.symm

end HalfBaked

namespace HalfBaked

/-- Claim C9: Bake operations keep stage names pairwise distinct and keep
`ferment_index` mapping each stage name to its current position;
`add_ferment` resolves collisions by appending underscores (never failing),
and adding two stages named "feed" yields names "feed" and "feed_". -/
theorem bake_name_invariants :
    (∀ (b : Bake) (idx : Option ℤ) (args : FermentKwargs) (b' : Bake),
        (b.ferments.map Ferment.name).Nodup →
        b.ferment_index = mkFermentIndex b.ferments →
        b.add_ferment idx args = some b' →
        (b'.ferments.map Ferment.name).Nodup
          ∧ b'.ferment_index = mkFermentIndex b'.ferments)
      ∧ (∀ (b : Bake) (i : ℤ) (b' : Bake),
          (b.ferments.map Ferment.name).Nodup →
          b.remove_ferment i = some b' →
          (b'.ferments.map Ferment.name).Nodup
            ∧ b'.ferment_index = mkFermentIndex b'.ferments)
      ∧ (∀ (l : List Ferment), (l.map Ferment.name).Nodup →
          ∀ (i : ℕ) (f : Ferment), l[i]? = some f →
            pyDictGet (mkFermentIndex l) f.name = some i)
      ∧ (Bake.init [FermentKwargs.mk "feed" (some 8) none none none none none,
            FermentKwargs.mk "feed" (some 8) none none none none none] none
          = some (Bake.mk none
              [Ferment.mk "feed" 8 20 8 10 none, Ferment.mk "feed_" 8 20 8 10 none]
              [("feed", 0), ("feed_", 1)])) := by
  refine ⟨add_ferment_preserves, remove_ferment_preserves,
    pyDictGet_mkFermentIndex, ?_⟩
  have hinitK : Ferment.initK (applyBakeDefaults
      (FermentKwargs.mk "feed" (some 8) none none none none none))
      = some (Ferment.mk "feed" 8 20 8 10 none) := by
    have h0 : Ferment.initK (applyBakeDefaults
        (FermentKwargs.mk "feed" (some 8) none none none none none))
        = Ferment.init "feed" (some 8) none none 20 8 10 := rfl
    rw [h0, init_some_hours _ _ _ _ _ _ (by norm_num)]
  have h1 : (Bake.mk none [] []).add_ferment none
      (FermentKwargs.mk "feed" (some 8) none none none none none)
      = some (Bake.mk none [Ferment.mk "feed" 8 20 8 10 none] [("feed", 0)]) := by
    rw [add_ferment_eq (Bake.mk none [] []) none _ (Ferment.mk "feed" 8 20 8 10 none)
      "feed" 0 [Ferment.mk "feed" 8 20 8 10 none] hinitK (by decide) rfl rfl]
    have hupd : Bake.update_ferment_index
        { Bake.mk none [] [] with ferments := [Ferment.mk "feed" 8 20 8 10 none] }
        = Bake.mk none [Ferment.mk "feed" 8 20 8 10 none] [("feed", 0)] := rfl
    rw [hupd]
    refine sync_times_unanchored _ 0 (by norm_num) (by norm_num) ?_
    intro g hg
    simp only [List.mem_singleton] at hg
    subst hg
    rfl
  have h2 : (Bake.mk none [Ferment.mk "feed" 8 20 8 10 none] [("feed", 0)]).add_ferment
      none (FermentKwargs.mk "feed" (some 8) none none none none none)
      = some (Bake.mk none
          [Ferment.mk "feed" 8 20 8 10 none, Ferment.mk "feed_" 8 20 8 10 none]
          [("feed", 0), ("feed_", 1)]) := by
    rw [add_ferment_eq
      (Bake.mk none [Ferment.mk "feed" 8 20 8 10 none] [("feed", 0)]) none _
      (Ferment.mk "feed" 8 20 8 10 none) "feed_" 1
      [Ferment.mk "feed" 8 20 8 10 none, Ferment.mk "feed_" 8 20 8 10 none]
      hinitK (by decide) rfl rfl]
    have hupd : Bake.update_ferment_index
        { Bake.mk none [Ferment.mk "feed" 8 20 8 10 none] [("feed", 0)] with
            ferments := [Ferment.mk "feed" 8 20 8 10 none,
              Ferment.mk "feed_" 8 20 8 10 none] }
        = Bake.mk none
            [Ferment.mk "feed" 8 20 8 10 none, Ferment.mk "feed_" 8 20 8 10 none]
            [("feed", 0), ("feed_", 1)] := rfl
    rw [hupd]
    refine sync_times_unanchored _ 1 (by norm_num) (by norm_num) ?_
    intro g hg
    simp only [List.mem_cons, List.not_mem_nil, or_false] at hg
    rcases hg with rfl | rfl <;> rfl
  show Bake.init _ _ = _
  unfold Bake.init
  have hstart : Bake.update_ferment_index
      { name := none, ferments := [], ferment_index := [] } = Bake.mk none [] [] := rfl
  rw [hstart, addAll_cons, h1]
  simp only [Option.some_bind]
  rw [addAll_cons, h2]
  simp only [Option.some_bind]
  rfl

/-- Witness for C9: on the two-feed stage list the stored dict lookup finds
the underscored stage at position 1. -/
theorem bake_name_invariants_witness :
    pyDictGet (mkFermentIndex
        [Ferment.mk "feed" 8 20 8 10 none, Ferment.mk "feed_" 8 20 8 10 none])
        "feed_" = some 1 := by
  have h := bake_name_invariants.2.2.1
    [Ferment.mk "feed" 8 20 8 10 none, Ferment.mk "feed_" 8 20 8 10 none]
    (by simp) 1 (Ferment.mk "feed_" 8 20 8 10 none) (by simp)
  simpa using h

end HalfBaked

namespace HalfBaked

theorem pyDelete_valid {α : Type} (l : List α) (i : ℤ)
    (h1 : -(l.length : ℤ) ≤ i) (h2 : i < l.length) :
    pyDelete l i = some (l.eraseIdx (pyResolve l.length i).toNat) := by
  obtain ⟨hge, hlt, hcast⟩ := pyResolve_bounds h1 h2
  unfold pyDelete
  rw [if_pos ⟨hge, by omega⟩]

/-- Claim C10: the index-addressed `Bake` operations accept negative
indices with Python wrap-around semantics instead of failing:
`add_ferment(index = -1)` inserts the new stage at position `n - 1`
(immediately before the last stage, not appended); `remove_ferment(-1)`
deletes the last stage; `sync_times(-1)` takes the last stage as the first
anchor candidate; and no lookup error is raised for any index in
`[-n, -1]`. -/
theorem negative_index_semantics :
    (∀ (b : Bake) (args : FermentKwargs) (f0 : Ferment),
        1 ≤ b.ferments.length →
        Ferment.initK (applyBakeDefaults args) = some f0 →
        ∃ (b' : Bake) (g : Ferment), b.add_ferment (some (-1)) args = some b'
          ∧ g.hours = f0.hours ∧ g.temp = f0.temp ∧ g.double_temp = f0.double_temp
          ∧ g.inoc = f0.inoc
          ∧ b'.ferments.map Ferment.core
              = (b.ferments.insertIdx (b.ferments.length - 1) g).map Ferment.core)
      ∧ (∀ b : Bake, 1 ≤ b.ferments.length →
          ∃ b', b.remove_ferment (-1) = some b'
            ∧ b'.ferments.map Ferment.core = b.ferments.dropLast.map Ferment.core)
      ∧ (∀ (b : Bake) (f : Ferment),
          b.ferments[b.ferments.length - 1]? = some f → f.start_time.isSome →
          findRef b.ferments (candidateIdx (-1) b.ferments.length)
            = some (some (-1)))
      ∧ (∀ (b : Bake) (k : ℤ), -(b.ferments.length : ℤ) ≤ k → k ≤ -1 →
          (∃ b', b.sync_times k = some b')
            ∧ (∃ b', b.remove_ferment k = some b')
            ∧ (∀ (args : FermentKwargs) (f0 : Ferment),
                Ferment.initK (applyBakeDefaults args) = some f0 →
                ∃ b', b.add_ferment (some k) args = some b')) := by
  have haddtotal : ∀ (b : Bake) (k : ℤ) (args : FermentKwargs) (f0 : Ferment),
      -(b.ferments.length : ℤ) ≤ k → k ≤ -1 →
      Ferment.initK (applyBakeDefaults args) = some f0 →
      ∃ (b' : Bake) (nm : String), b.add_ferment (some k) args = some b'
        ∧ b'.ferments.map Ferment.core
            = (pyInsert b.ferments k ({ f0 with name := nm })).map Ferment.core := by
    intro b k args f0 hk1 hk2 hinit
    obtain ⟨nmD, hnmD⟩ : ∃ nm, nm = dedupName (b.ferment_index.map Prod.fst)
        (b.ferment_index.length + 1) f0.name := ⟨_, rfl⟩
    obtain ⟨fmD, hfmD⟩ : ∃ fm, fm = pyInsert b.ferments k ({ f0 with name := nmD }) :=
      ⟨_, rfl⟩
    have hlenD : fmD.length = b.ferments.length + 1 := by
      rw [hfmD]
      have := (pyInsert_perm b.ferments k ({ f0 with name := nmD })).length_eq
      simpa using this
    have heq := add_ferment_eq b (some k) args f0 nmD k fmD hinit hnmD rfl hfmD
    obtain ⟨b', hsync⟩ := sync_times_total
      (Bake.update_ferment_index { b with ferments := fmD }) k
      (by
        right
        constructor
        · show -(fmD.length : ℤ) ≤ k
          rw [hlenD]
          push_cast
          omega
        · show k < (fmD.length : ℤ)
          rw [hlenD]
          push_cast
          omega)
    obtain ⟨_, hcore, _, _⟩ := sync_times_core_frame _ _ _ hsync
    refine ⟨b', nmD, ?_, ?_⟩
    · rw [heq]
      exact hsync
    · rw [hcore]
      show fmD.map Ferment.core = _
      rw [hfmD]
  refine ⟨?_, ?_, ?_, ?_⟩
  · intro b args f0 hn hinit
    obtain ⟨b', nm, hadd, hcore⟩ := haddtotal b (-1) args f0 (by omega) (by omega) hinit
    refine ⟨b', { f0 with name := nm }, hadd, rfl, rfl, rfl, rfl, ?_⟩
    rw [hcore, pyInsert_neg_one _ _ hn]
  · intro b hn
    have hdel := pyDelete_valid b.ferments (-1) (by omega) (by omega)
    have hres : (pyResolve b.ferments.length (-1)).toNat = b.ferments.length - 1 := by
      rw [pyResolve_neg _ _ (by omega)]
      omega
    rw [hres, eraseIdx_last] at hdel
    obtain ⟨b', hsync⟩ := sync_times_total
      (Bake.update_ferment_index { b with ferments := b.ferments.dropLast }) 0
      (by
        show (b.ferments.dropLast.length = 0)
          ∨ (-(b.ferments.dropLast.length : ℤ) ≤ 0
              ∧ (0 : ℤ) < b.ferments.dropLast.length)
        have : b.ferments.dropLast.length = b.ferments.length - 1 :=
          List.length_dropLast b.ferments
        omega)
    obtain ⟨_, hcore, _, _⟩ := sync_times_core_frame _ _ _ hsync
    refine ⟨b', ?_, hcore⟩
    unfold Bake.remove_ferment
    rw [hdel, Option.some_bind]
    exact hsync
  · intro b f hf hfs
    have hn : 1 ≤ b.ferments.length := by
      have := lt_of_getElem?_some hf
      omega
    have hget : pyGet b.ferments (-1) = some f := by
      rw [pyGet_valid b.ferments (-1) (by omega) (by omega)]
      have hres : (pyResolve b.ferments.length (-1)).toNat = b.ferments.length - 1 := by
        rw [pyResolve_neg _ _ (by omega)]
        omega
      rw [hres]
      exact hf
    unfold candidateIdx
    rw [findRef_cons, hget]
    simp only [Option.some_bind, if_pos hfs]
  · intro b k hk1 hk2
    have hn : 1 ≤ b.ferments.length := by omega
    refine ⟨?_, ?_, ?_⟩
    · exact sync_times_total b k (Or.inr ⟨hk1, by omega⟩)
    · have hdel := pyDelete_valid b.ferments k (by omega) (by omega)
      obtain ⟨b', hsync⟩ := sync_times_total
        (Bake.update_ferment_index
          { b with ferments :=
              b.ferments.eraseIdx (pyResolve b.ferments.length k).toNat }) 0
        (by
          have hb := pyResolve_bounds (show -(b.ferments.length : ℤ) ≤ k by omega)
            (show k < (b.ferments.length : ℤ) by omega)
          show ((b.ferments.eraseIdx (pyResolve b.ferments.length k).toNat).length = 0)
            ∨ (-(((b.ferments.eraseIdx (pyResolve b.ferments.length k).toNat).length : ℤ)) ≤ 0
                ∧ (0 : ℤ) < ((b.ferments.eraseIdx (pyResolve b.ferments.length k).toNat).length : ℤ))
          have hlen := b.ferments.length_eraseIdx (pyResolve b.ferments.length k).toNat
          rw [if_pos hb.2.1] at hlen
          omega)
      refine ⟨b', ?_⟩
      unfold Bake.remove_ferment
      rw [hdel, Option.some_bind]
      exact hsync
    · intro args f0 hinit
      obtain ⟨b', nm, hadd, _⟩ := haddtotal b k args f0 hk1 hk2 hinit
      exact ⟨b', hadd⟩

/-- Witness for C10 on a two-stage bake: adding at index `-1` succeeds and
puts the new stage between the two, removing index `-1` drops the last
stage, the anchored last stage is the first anchor candidate of
`sync_times(-1)`, and index `-2` raises no lookup error. -/
theorem negative_index_semantics_witness :
    (∃ (b' : Bake) (g : Ferment),
        (Bake.mk none
            [Ferment.mk "a" 1 20 8 10 none, Ferment.mk "b" 2 20 8 10 none]
            [("a", 0), ("b", 1)]).add_ferment (some (-1))
            (FermentKwargs.mk "c" (some 4) none none none none none) = some b'
          ∧ g.hours = 4 ∧ g.temp = 20 ∧ g.double_temp = 8 ∧ g.inoc = 10
          ∧ b'.ferments.map Ferment.core
              = ([Ferment.mk "a" 1 20 8 10 none,
                  Ferment.mk "b" 2 20 8 10 none].insertIdx 1 g).map Ferment.core)
      ∧ (∃ b', (Bake.mk none
            [Ferment.mk "a" 1 20 8 10 none, Ferment.mk "b" 2 20 8 10 none]
            [("a", 0), ("b", 1)]).remove_ferment (-1) = some b'
          ∧ b'.ferments.map Ferment.core
              = ([Ferment.mk "a" 1 20 8 10 none,
                  Ferment.mk "b" 2 20 8 10 none].dropLast).map Ferment.core)
      ∧ findRef [Ferment.mk "a" 1 20 8 10 none, Ferment.mk "b" 2 20 8 10 (some 0)]
          (candidateIdx (-1) 2) = some (some (-1))
      ∧ (∃ b', (Bake.mk none
          [Ferment.mk "a" 1 20 8 10 none, Ferment.mk "b" 2 20 8 10 none]
          [("a", 0), ("b", 1)]).sync_times (-2) = some b') := by
  have hinit : Ferment.initK (applyBakeDefaults
      (FermentKwargs.mk "c" (some 4) none none none none none))
      = some (Ferment.mk "c" 4 20 8 10 none) := by
    have h0 : Ferment.initK (applyBakeDefaults
        (FermentKwargs.mk "c" (some 4) none none none none none))
        = Ferment.init "c" (some 4) none none 20 8 10 := rfl
    rw [h0, init_some_hours _ _ _ _ _ _ (by norm_num)]
  refine ⟨?_, ?_, ?_, ?_⟩
  · obtain ⟨b', g, hadd, h4, h20, h8, h10, hcore⟩ :=
      negative_index_semantics.1
        (Bake.mk none [Ferment.mk "a" 1 20 8 10 none, Ferment.mk "b" 2 20 8 10 none]
          [("a", 0), ("b", 1)])
        (FermentKwargs.mk "c" (some 4) none none none none none)
        (Ferment.mk "c" 4 20 8 10 none) (by norm_num) hinit
    exact ⟨b', g, hadd, h4, h20, h8, h10, hcore⟩
  · exact negative_index_semantics.2.1
      (Bake.mk none [Ferment.mk "a" 1 20 8 10 none, Ferment.mk "b" 2 20 8 10 none]
        [("a", 0), ("b", 1)]) (by norm_num)
  · exact negative_index_semantics.2.2.1
      (Bake.mk none [Ferment.mk "a" 1 20 8 10 none, Ferment.mk "b" 2 20 8 10 (some 0)]
        [("a", 0), ("b", 1)]) (Ferment.mk "b" 2 20 8 10 (some 0)) (by simp) rfl
  · exact (negative_index_semantics.2.2.2
      (Bake.mk none [Ferment.mk "a" 1 20 8 10 none, Ferment.mk "b" 2 20 8 10 none]
        [("a", 0), ("b", 1)]) (-2) (by norm_num) (by norm_num)).1

end HalfBaked
